import Mathlib

/-!
Shallow embedding of the training/decoding core of the pmap-transformer
repository, and proofs about it.

Sources embedded:
  * `src/partitioning/xmap_train_functions.py` (`train_step`, `get_minibatch`,
    `update_opt_state`)
  * `benchmark_pjit_dp.py` (`get_minibatch`, the gradient-accumulation loop)
  * `src/models/layers.py` (`CausalAttention` key/value cache update)
  * `torch_compatability/generation.py` (`top_k_logits`, `top_p_logits`,
    `typical_sampling_logits`, `TextGenerator.generate_tokens`,
    `TextGenerator.token_to_text`, `TextGenerator.generate_text_from_prompt`)

Modelling conventions:
  * Tensors along their only relevant axis are `List ℚ`; machine floats are
    embedded as exact rationals.  The IEEE value `-inf` used as a filter value
    has no rational counterpart, so functions take the filter value as an
    explicit parameter `fv`, exactly as the Python signatures do
    (`filter_value: float = -float("Inf")`).
  * `exp` and `log` are transcendental, hence not rational-valued; they are
    passed as explicit function parameters (`e`, `lg`), with positivity of `e`
    hypothesised where a proof needs it.  All definitions stay computable.
  * JAX pytrees are `PyTree`, a finitely-branching tree of tensors;
    `jax.tree_util.tree_map` is `PyTree.map` / `PyTree.mapM`.
  * Runtime errors (torch `IndexError`, shape failures) are `Option`-valued
    `none` results.
-/

/-- Python slice `l[-n:]`.  For `n ≥ 1` it keeps the last `min n l.length`
elements; for `n = 0` Python's `l[-0:] = l[0:]` returns the whole list. -/
def pySliceLast (n : ℕ) (l : List α) : List α :=
  if n = 0 then l else l.drop (l.length - n)

/-- Cumulative sums (`torch.cumsum` / `.cumsum(dim=-1)`), starting from
accumulator `acc`. -/
def cumsumFrom (acc : ℚ) : List ℚ → List ℚ
  | [] => []
  | x :: xs => (acc + x) :: cumsumFrom (acc + x) xs

/-- Cumulative sums of a list, entry `j` being the sum of entries `0..j`. -/
def cumsum (l : List ℚ) : List ℚ := cumsumFrom 0 l

/-- Softmax of a logits vector, with `e` standing for the exponential. -/
def softmaxQ (e : ℚ → ℚ) (l : List ℚ) : List ℚ :=
  l.map (fun x => e x / (l.map e).sum)

/-- Index of the first maximal entry (`torch.topk(probs, k=1).indices`). -/
def argmaxAux (i bi : ℕ) (bv : ℚ) : List ℚ → ℕ
  | [] => bi
  | x :: xs => if bv < x then argmaxAux (i + 1) i x xs else argmaxAux (i + 1) bi bv xs

/-- Argmax of a probability vector; `0` on the empty list. -/
def argmaxIdx : List ℚ → ℕ
  | [] => 0
  | x :: xs => argmaxAux 1 0 x xs

/-- `jax.lax.fori_loop lo hi body init`: runs `body i` for `i = lo .. hi-1`,
threading the carry. -/
def foriLoop (lo hi : ℕ) (body : ℕ → α → α) (init : α) : α :=
  (List.range' lo (hi - lo)).foldl (fun a i => body i a) init

/-! ## `src/models/layers.py`: CausalAttention key/value cache

Only the sequence axis of the cached keys/values matters for the cache
claims, so a cached tensor is a `List κ` of per-position slots. -/

/-- The `use_cache=True` cache update of `CausalAttention.__call__`
(layers.py lines 144-156): with a past, concatenate then keep the last
`block_size` positions (`[:, :, -self.block_size :, :]`); with no past the
fresh keys/values are stored untruncated. -/
def attention_cache_update (blockSize : ℕ)
    (layerPast : Option (List κ × List κ)) (key value : List κ) :
    List κ × List κ :=
  match layerPast with
  | none => (key, value)
  | some past =>
      (pySliceLast blockSize (past.1 ++ key), pySliceLast blockSize (past.2 ++ value))

/-- The cache after a first call (no past) on `first` followed by one
decoding call per element of `rest`, as `generate_tokens` drives it. -/
def iterCacheUpdates (blockSize : ℕ) (first : List κ × List κ)
    (rest : List (List κ × List κ)) : List κ × List κ :=
  rest.foldl (fun past kv => attention_cache_update blockSize (some past) kv.1 kv.2)
    (attention_cache_update blockSize none first.1 first.2)

/-! ## `src/partitioning/xmap_train_functions.py` -/

/-- `jax.lax.with_sharding_constraint x spec` attaches layout metadata to an
array; it is the identity on the array's values. -/
def with_sharding_constraint (x : List ℚ) (spec : τ) : List ℚ := x

/-- The update-rule collaborator (`optax` optimizer):
`update (grads, state, params) -> (deltas, new_state)`. -/
structure Optimizer (σ : Type) where
  update : List ℚ → σ → List ℚ → List ℚ × σ

/-- `optax.apply_updates params updates`: per-leaf addition of deltas. -/
def apply_updates (params updates : List ℚ) : List ℚ :=
  List.zipWith (· + ·) params updates

/-- `update_opt_state` (xmap_train_functions.py lines 90-108), verbatim
dataflow.  Note line 103 of the source reads
`grads = with_sharding_constraint(params, grad_spec)`: it rebinds `grads`
to the constrained *params*, so the supplied gradients are discarded. -/
def update_opt_state (grads : List ℚ) (optimizer_state : σ) (params : List ℚ)
    (optimizer : Optimizer σ) (grad_spec : τ) : List ℚ × σ :=
  let grads := with_sharding_constraint params grad_spec
  let grads := with_sharding_constraint grads grad_spec
  let us := optimizer.update grads optimizer_state params
  let new_params := apply_updates params us.1
  (new_params, us.2)

/-- The optimizer-update step as the spec's words describe it (spec 4.4):
constrain the params, constrain the *gradients*, run the update rule on the
gradients, add the deltas to the params.  Used only to compare with
`update_opt_state`. -/
def update_opt_state_claimed (grads : List ℚ) (optimizer_state : σ)
    (params : List ℚ) (optimizer : Optimizer σ) (grad_spec : τ) : List ℚ × σ :=
  let params := with_sharding_constraint params grad_spec
  let grads := with_sharding_constraint grads grad_spec
  let us := optimizer.update grads optimizer_state params
  (apply_updates params us.1, us.2)

/-- `jax.lax.pmean` over the `"batch"` axis with a single participant is the
identity (spec section 8: "Distributed Synchronizer with a single participant
is the identity function"). -/
def pmean (x : ℚ) : ℚ := x

/-- The gradient-accumulation body `cumul_minibatch_step` of `train_step`:
adds the microbatch loss and gradient elementwise into the carried
accumulators.  `gradFn i` is the opaque `value_and_grad(loss_fn)` applied to
microbatch `i` (the model forward pass is outside the spec's scope). -/
def cumul_minibatch_step (gradFn : ℕ → ℚ × List ℚ) (gradIdx : ℕ)
    (acc : ℚ × List ℚ) : ℚ × List ℚ :=
  (acc.1 + (gradFn gradIdx).1,
   List.zipWith (· + ·) acc.2 (gradFn gradIdx).2)

/-- `train_step` (xmap_train_functions.py lines 11-76; the benchmark's
`train_step` shares the same accumulation loop): initialize the accumulator to
`(0.0, zeros_like params)`, run `fori_loop 0 accum_steps`, divide both
accumulators by `accum_steps`, `pmean` the results, and emit
`(grads, (loss, exp loss))` where the pair is the metrics record. -/
def train_step (gradFn : ℕ → ℚ × List ℚ) (params : List ℚ)
    (accumSteps : ℕ) (e : ℚ → ℚ) : List ℚ × (ℚ × ℚ) :=
  let initMinibatch : ℚ × List ℚ := (0, params.map (fun _ => 0))
  let lg := foriLoop 0 accumSteps (cumul_minibatch_step gradFn) initMinibatch
  let loss := lg.1 / (accumSteps : ℚ)
  let grads := lg.2.map (fun x => x / (accumSteps : ℚ))
  let loss := pmean loss
  let grads := grads.map pmean
  (grads, (loss, e loss))

/-! ## `get_minibatch` and pytrees -/

/-- A JAX pytree: a finitely-branching tree whose leaves are tensors. -/
inductive PyTree (α : Type) where
  | leaf : α → PyTree α
  | node : List (PyTree α) → PyTree α

/-- `jax.tree_util.tree_map f`: applies `f` to every leaf. -/
def PyTree.map (f : α → β) : PyTree α → PyTree β
  | .leaf a => .leaf (f a)
  | .node ts => .node (ts.attach.map (fun t => PyTree.map f t.1))
decreasing_by
  have := List.sizeOf_lt_of_mem t.2
  simp only [PyTree.node.sizeOf_spec]
  omega

/-- `tree_map` with a leaf function that can fail; the whole call fails if any
leaf does (a raised exception aborts the `tree_map`). -/
def PyTree.mapM (f : α → Option β) : PyTree α → Option (PyTree β)
  | .leaf a => (f a).map .leaf
  | .node ts => (ts.attach.mapM (fun t => PyTree.mapM f t.1)).map .node
decreasing_by
  have := List.sizeOf_lt_of_mem t.2
  simp only [PyTree.node.sizeOf_spec]
  omega

/-- All leaves of a pytree satisfy `P`. -/
inductive PyTree.All (P : α → Prop) : PyTree α → Prop where
  | leaf {a : α} : P a → PyTree.All P (.leaf a)
  | node {ts : List (PyTree α)} :
      (∀ t ∈ ts, PyTree.All P t) → PyTree.All P (.node ts)

/-- Clamp an index into `[0, len-1]`, as `jax.lax.dynamic_slice` does with
out-of-bounds start indices. -/
def clampIdx (len : ℕ) (i : ℤ) : ℕ :=
  Int.toNat (min (max i 0) ((len : ℤ) - 1))

/-- `jax.lax.dynamic_index_in_dim x i keepdims=False` on one axis: the index
is clamped into range (JAX `dynamic_slice` semantics — it never raises for an
out-of-range index); only a zero-length axis fails. -/
def dynamic_index_in_dim (x : List α) (i : ℤ) : Option α :=
  x.get? (clampIdx x.length i)

/-- `get_minibatch batch grad_idx` (xmap_train_functions.py lines 23-27 and
benchmark_pjit_dp.py lines 80-86): `tree_map` of
`dynamic_index_in_dim(x, grad_idx, keepdims=False, axis=1)` over the batch
tree.  A leaf is a 3-axis tensor `(axis0, axis1=accumulation, axis2)`;
indexing on axis 1 selects per axis-0 slice. -/
def get_minibatch (batch : PyTree (List (List (List ℚ)))) (gradIdx : ℤ) :
    Option (PyTree (List (List ℚ))) :=
  batch.mapM (fun x => x.mapM (fun row => dynamic_index_in_dim row gradIdx))

/-- The claim-side description of minibatch extraction: select the clamped
index along axis 1 of every leaf, keeping the other axes.  Used to compare
with `get_minibatch`. -/
def selectClamped (i : ℤ) (x : List (List (List ℚ))) : List (List ℚ) :=
  x.map (fun row => row.getD (clampIdx row.length i) [])

/-! ## `torch_compatability/generation.py`: logit filters -/

/-- Descending-by-value order on `(index, value)` pairs, ties broken by index:
the order produced by `torch.sort(logits, descending=True)`. -/
def descRel (p q : ℕ × ℚ) : Prop := q.2 < p.2 ∨ (p.2 = q.2 ∧ p.1 ≤ q.1)

/-- Ascending-by-value order on `(index, value)` pairs, ties broken by index:
the order produced by `torch.sort(scores, descending=False)`. -/
def ascRel (p q : ℕ × ℚ) : Prop := p.2 < q.2 ∨ (p.2 = q.2 ∧ p.1 ≤ q.1)

instance : DecidableRel descRel := fun p q => by
  unfold descRel; infer_instance

instance : DecidableRel ascRel := fun p q => by
  unfold ascRel; infer_instance

instance : IsTotal (ℕ × ℚ) descRel := by
  constructor
  intro p q
  rcases lt_trichotomy p.2 q.2 with h | h | h
  · exact Or.inr (Or.inl h)
  · rcases Nat.le_total p.1 q.1 with h2 | h2
    · exact Or.inl (Or.inr ⟨h, h2⟩)
    · exact Or.inr (Or.inr ⟨h.symm, h2⟩)
  · exact Or.inl (Or.inl h)

instance : IsTrans (ℕ × ℚ) descRel := by
  constructor
  intro p q r hpq hqr
  rcases hpq with h1 | ⟨e1, i1⟩
  · rcases hqr with h2 | ⟨e2, _⟩
    · exact Or.inl (h2.trans h1)
    · exact Or.inl (e2 ▸ h1)
  · rcases hqr with h2 | ⟨e2, i2⟩
    · exact Or.inl (e1 ▸ h2)
    · exact Or.inr ⟨e1.trans e2, i1.trans i2⟩

instance : IsTotal (ℕ × ℚ) ascRel := by
  constructor
  intro p q
  rcases lt_trichotomy p.2 q.2 with h | h | h
  · exact Or.inl (Or.inl h)
  · rcases Nat.le_total p.1 q.1 with h2 | h2
    · exact Or.inl (Or.inr ⟨h, h2⟩)
    · exact Or.inr (Or.inr ⟨h.symm, h2⟩)
  · exact Or.inr (Or.inl h)

instance : IsTrans (ℕ × ℚ) ascRel := by
  constructor
  intro p q r hpq hqr
  rcases hpq with h1 | ⟨e1, i1⟩
  · rcases hqr with h2 | ⟨e2, _⟩
    · exact Or.inl (h1.trans h2)
    · exact Or.inl (e2 ▸ h1)
  · rcases hqr with h2 | ⟨e2, i2⟩
    · exact Or.inl (e1 ▸ h2)
    · exact Or.inr ⟨e1.trans e2, i1.trans i2⟩

/-- `top_k_logits logits k` (generation.py lines 41-45):
`v = torch.topk(logits, k)` then every logit strictly below the k-th largest
value is set to the filter value.  `torch.topk` raises when `k = 0` is not
selectable or `k` exceeds the dimension, hence the `Option`. -/
def top_k_logits (logits : List ℚ) (k : ℕ) (fv : ℚ) : Option (List ℚ) :=
  if k = 0 ∨ logits.length < k then none
  else
    let sortedVals := List.insertionSort (fun a b : ℚ => b ≤ a) logits
    let kth := sortedVals.getD (k - 1) 0
    some (logits.map (fun x => if x < kth then fv else x))

/-- Shift a boolean removal mask one slot to the right and zero the first
slot (generation.py lines 67-68:
`sorted_indices_to_remove[..., 1:] = sorted_indices_to_remove[..., :-1]`
then `sorted_indices_to_remove[..., 0] = 0`). -/
def shiftRightMask : List Bool → List Bool
  | [] => []
  | raw => false :: raw.dropLast

/-- Removal mask of `top_p_logits` in sorted order: cumulative softmax
probabilities of the descending-sorted logits, marked above the threshold,
then right-shifted. -/
def topPMaskSorted (e : ℚ → ℚ) (sortedLogits : List ℚ) (topP : ℚ) : List Bool :=
  shiftRightMask ((cumsum (softmaxQ e sortedLogits)).map (fun c => decide (topP < c)))

/-- `top_p_logits logits top_p` (generation.py lines 48-72): when
`top_p > 0`, sort descending, build the shifted removal mask from cumulative
softmax probabilities, and set the removed token positions to the filter
value; otherwise return the logits unchanged. -/
def top_p_logits (e : ℚ → ℚ) (logits : List ℚ) (topP fv : ℚ) : List ℚ :=
  if 0 < topP then
    let sorted := List.insertionSort descRel logits.enum
    let mask := topPMaskSorted e (sorted.map Prod.snd) topP
    let indicesToRemove : List ℕ := (List.zip (sorted.map Prod.fst) mask).filterMap
      (fun q => if q.2 then some q.1 else none)
    logits.enum.map (fun q => if q.1 ∈ indicesToRemove then fv else q.2)
  else logits

/-- Nucleus filtering as claim C6's words describe it: sort descending,
keep exactly the prefix through the *first* position whose cumulative
softmax probability meets or exceeds `top_p`, and mask every other token to
the filter value.  Used only to compare with `top_p_logits`. -/
def top_p_logits_claimed (e : ℚ → ℚ) (logits : List ℚ) (topP fv : ℚ) :
    List ℚ :=
  let sorted := List.insertionSort descRel logits.enum
  let cps := cumsum (softmaxQ e (sorted.map Prod.snd))
  let jstar := (cps.takeWhile (fun c => decide (c < topP))).length
  let indicesToRemove : List ℕ := (sorted.map Prod.fst).enum.filterMap
    (fun q => if jstar < q.1 then some q.2 else none)
  logits.enum.map (fun q => if q.1 ∈ indicesToRemove then fv else q.2)

/-- Surprisal distances of `typical_sampling_logits` (generation.py lines
88-94): entropy of the log-softmax distribution and the absolute deviation
of each token's surprisal from it.  `e` and `lgf` stand for `exp` and
`log`; `nansum` is a plain sum in exact arithmetic. -/
def typicalShiftedScores (e lgf : ℚ → ℚ) (logits : List ℚ) : List ℚ :=
  let s := (logits.map e).sum
  let normalized := logits.map (fun x => x - lgf s)
  let probs := normalized.map e
  let ent := -((List.zipWith (fun nx px => nx * px) normalized probs).sum)
  normalized.map (fun nx => |(-nx) - ent|)

/-- `torch.sort(shifted_scores, descending=False)` (line 95) as
`(index, score)` pairs. -/
def typicalSorted (e lgf : ℚ → ℚ) (logits : List ℚ) : List (ℕ × ℚ) :=
  List.insertionSort ascRel (typicalShiftedScores e lgf logits).enum

/-- `sorted_logits.softmax(dim=-1).cumsum(dim=-1)` (lines 96-97), the
cumulative probabilities of the gathered logits. -/
def typicalCumProbs (e lgf : ℚ → ℚ) (logits : List ℚ) : List ℚ :=
  cumsum (softmaxQ e
    (((typicalSorted e lgf logits).map Prod.fst).map (fun i => logits.getD i 0)))

/-- `last_ind = (cumulative_probs < mass).sum(dim=1)` (line 99); the
source's clamp `last_ind[last_ind < 0] = 0` is a no-op on a count. -/
def typicalLastInd (e lgf : ℚ → ℚ) (logits : List ℚ) (mass : ℚ) : ℕ :=
  ((typicalCumProbs e lgf logits).filter (fun c => decide (c < mass))).length

/-- `sorted_scores.gather(1, last_ind.view(-1, 1))` (lines 101-103): the
score at position `last_ind` of the ascending sort — `none` when `last_ind`
is out of bounds, where torch raises `IndexError`. -/
def typicalThreshold? (e lgf : ℚ → ℚ) (logits : List ℚ) (mass : ℚ) :
    Option ℚ :=
  ((typicalSorted e lgf logits).map Prod.snd).get?
    (typicalLastInd e lgf logits mass)

/-- The removal mask in sorted order: scores strictly above the threshold
are removed, except that the first `min_tokens_to_keep` sorted slots are
kept when that parameter exceeds 1 (lines 101-106). -/
def typicalFinalMask (e lgf : ℚ → ℚ) (logits : List ℚ) (threshold : ℚ)
    (minKeep : ℕ) : List Bool :=
  let removeSorted := ((typicalSorted e lgf logits).map Prod.snd).map
    (fun sc => decide (threshold < sc))
  if 1 < minKeep then
    removeSorted.enum.map (fun q => if q.1 < minKeep then false else q.2)
  else removeSorted

/-- Original-position indices removed by `typical_sampling_logits`
(generation.py lines 101-109): gather the threshold (raising — `none` —
when `last_ind` equals the vocabulary size), build the sorted removal mask,
and scatter it back to original token positions. -/
def typicalIndicesToRemove (e lgf : ℚ → ℚ) (logits : List ℚ) (mass : ℚ)
    (minKeep : ℕ) : Option (List ℕ) :=
  match typicalThreshold? e lgf logits mass with
  | none => none
  | some threshold =>
    some ((List.zip ((typicalSorted e lgf logits).map Prod.fst)
        (typicalFinalMask e lgf logits threshold minKeep)).filterMap
      (fun q => if q.2 then some q.1 else none))

/-- `typical_sampling_logits` (generation.py lines 75-112): mask the removed
positions to the filter value (`masked_fill`). -/
def typical_sampling_logits (e lgf : ℚ → ℚ) (logits : List ℚ) (mass : ℚ)
    (minKeep : ℕ) (fv : ℚ) : Option (List ℚ) :=
  match typicalIndicesToRemove e lgf logits mass minKeep with
  | none => none
  | some rem => some (logits.enum.map (fun q => if q.1 ∈ rem then fv else q.2))

/-! ## `torch_compatability/generation.py`: TextGenerator -/

/-- The opaque tokenizer collaborator (spec section 6); `encode` absorbs the
source's `prompt.strip()` / `text_standardize` text clean-up. -/
structure Tokenizer where
  encode : String → List ℕ
  decode : List ℕ → String
  eos_token_id : ℕ

/-- `TextGenerator.__init__`: stores the sequence length and tokenizer;
`pad_token = tokenizer.eos_token_id`. -/
structure TextGenerator where
  seq_len : ℕ
  tokenizer : Tokenizer

/-- The generator's pad/end-of-sequence token id. -/
def TextGenerator.pad_token (tg : TextGenerator) : ℕ := tg.tokenizer.eos_token_id

/-- Mutable state of the `generate_tokens` loop: the running sequence `x`,
the next model input `x_cond`, the key/value cache, the generated-token
history used by the repetition penalty, and the log-probability trace.
`π` is the opaque type of the model's `past_states`. -/
structure GenState (π : Type) where
  x : List ℕ
  xCond : List ℕ
  layerPast : Option π
  generatedTokens : List ℕ
  logprobs : List ℚ

/-- Return value of `generate_tokens`.  The source returns a 3-tuple
`(x, step, logprobs)` from the loop exhaustion and non-greedy end-of-sequence
paths, but a 2-tuple `(x, step)` from the greedy end-of-sequence path (line
242) — the two arities are distinct constructors. -/
inductive GenReturn where
  | triple (x : List ℕ) (step : ℕ) (logprobs : List ℚ)
  | pair (x : List ℕ) (step : ℕ)
deriving DecidableEq

/-- Outcome of one iteration of the `generate_tokens` loop body. -/
inductive StepOut (π : Type) where
  | cont (st : GenState π)
  | done (r : GenReturn)
  | err

/-- Arguments of `generate_tokens` other than the prompt and step budget.
`model` is the opaque forward pass `(x_cond, past) ↦ (logits, new_past)`
returning one logits row per input position; `e` and `lgf` stand for the
transcendental `exp` and `log`; `sampler` is the random draw made by
`torch.multinomial` at each step; `fv` stands for the IEEE `-inf` filter
value. -/
structure GenConfig (π : Type) where
  model : List ℕ → Option π → List (List ℚ) × π
  e : ℚ → ℚ
  lgf : ℚ → ℚ
  sampler : ℕ → List ℚ → ℕ
  temperature : ℚ
  top_k : ℕ
  top_p : ℚ
  tau : ℚ
  repetition_penalty : ℚ
  sampling_method : Option String
  fv : ℚ

/-- The repetition-penalty loop (generation.py lines 221-225): for each
previously generated token id, multiply its logit by the penalty if the logit
is negative, else divide it by the penalty. -/
def applyRepetitionPenalty (rp : ℚ) (history : List ℕ) (logits : List ℚ) :
    List ℚ :=
  history.foldl (fun l t =>
    if l.getD t 0 < 0 then l.set t (l.getD t 0 * rp) else l.set t (l.getD t 0 / rp))
    logits

/-- The filtering-policy dispatch (generation.py lines 227-234): exactly one
of nucleus / typical / topk, selected by name; any other name (greedy
included) applies no filter.  No name is validated. -/
def applyFilter (cfg : GenConfig π) (logits : List ℚ) : Option (List ℚ) :=
  if cfg.sampling_method = some ("nucleus") then
    some (top_p_logits cfg.e logits cfg.top_p cfg.fv)
  else if cfg.sampling_method = some ("typical") then
    typical_sampling_logits cfg.e cfg.lgf logits cfg.tau 1 cfg.fv
  else if cfg.sampling_method = some ("topk") then
    top_k_logits logits cfg.top_k cfg.fv
  else some logits

/-- One iteration of the `generate_tokens` loop (generation.py lines
207-253): model forward pass, last-position logits divided by the
temperature, repetition penalty, filtering policy, softmax, then either the
greedy branch (argmax; append; on pad return the 2-tuple) or the sampling
branch (draw; record log-probability; on pad return the 3-tuple without
appending; otherwise append to the sequence and, if absent, to the
generated-token history).  Rational division is total (`v / 0 = 0`), so the
non-finite logits a temperature of exactly zero produces in floating point
— and the failure `torch.multinomial` then raises — are outside this
embedding; theorems about the sampling path therefore assume a nonzero
temperature wherever that corner matters. -/
def genStep (cfg : GenConfig π) (pad : ℕ) (step : ℕ) (st : GenState π) :
    StepOut π :=
  let mr := cfg.model st.xCond st.layerPast
  match mr.1.getLast? with
  | none => .err
  | some row =>
    let logits := row.map (fun v => v / cfg.temperature)
    let logits := applyRepetitionPenalty cfg.repetition_penalty st.generatedTokens logits
    match applyFilter cfg logits with
    | none => .err
    | some logits =>
      let probs := softmaxQ cfg.e logits
      if cfg.sampling_method = some ("greedy") then
        let next := argmaxIdx probs
        let x2 := st.x ++ [next]
        if next = pad then .done (.pair x2 step)
        else .cont ⟨x2, [next], some mr.2, st.generatedTokens, st.logprobs⟩
      else
        let next := cfg.sampler step probs
        let lps := st.logprobs ++ [cfg.lgf (probs.getD next 0)]
        if next = pad then .done (.triple st.x step lps)
        else
          let gen2 := if next ∈ st.generatedTokens then st.generatedTokens
                      else st.generatedTokens ++ [next]
          .cont ⟨st.x ++ [next], [next], some mr.2, gen2, lps⟩

/-- The `for step in range(steps)` loop of `generate_tokens`: iterate
`genStep`; when the budget is exhausted return `(x, steps, logprobs)`.
`fuel` counts the remaining iterations and `step` the current loop index, so
the exhaustion return's step count `step = steps`. -/
def genLoop (cfg : GenConfig π) (pad : ℕ) :
    ℕ → ℕ → GenState π → Option GenReturn
  | 0, step, st => some (.triple st.x step st.logprobs)
  | fuel + 1, step, st =>
    match genStep cfg pad step st with
    | .err => none
    | .done r => some r
    | .cont st2 => genLoop cfg pad fuel (step + 1) st2

/-- Iterated loop body stopping after `k` continuing iterations, exposing the
loop state (for invariants about the running history). -/
def iterGen (cfg : GenConfig π) (pad : ℕ) :
    ℕ → ℕ → GenState π → Option (GenState π)
  | 0, _, st => some st
  | k + 1, step, st =>
    match genStep cfg pad step st with
    | .cont st2 => iterGen cfg pad k (step + 1) st2
    | _ => none

/-- Initialization of `generate_tokens` (generation.py lines 188-205):
encode the prompt, truncate the conditioning window to the most recent
`seq_len` tokens (`x[:, -self.seq_len:]`) when longer, start with no cache,
empty history and empty log-probability trace. -/
def mkInitState (tg : TextGenerator) (prompt : String) : GenState π :=
  let tokens := tg.tokenizer.encode prompt
  let xCond := if tg.seq_len < tokens.length then pySliceLast tg.seq_len tokens
               else tokens
  ⟨tokens, xCond, none, [], []⟩

/-- `TextGenerator.generate_tokens` (generation.py lines 172-255). -/
def generate_tokens (tg : TextGenerator) (cfg : GenConfig π) (prompt : String)
    (steps : ℕ) : Option GenReturn :=
  genLoop cfg tg.pad_token steps 0 (mkInitState tg prompt)

/-- `TextGenerator.token_to_text` (generation.py lines 160-170): decode
`tok[0, -step:]` and join with the original prompt text. -/
def token_to_text (tg : TextGenerator) (input : String) (tok : List ℕ)
    (step : ℕ) : String × String :=
  let newWords := pySliceLast step tok
  let generatedText := tg.tokenizer.decode newWords
  (input ++ generatedText, generatedText)

/-- `TextGenerator.generate_text_from_prompt` (generation.py lines 131-158):
run `generate_tokens` on the standardized prompt and unpack
`output, step, logprobs` — which raises (here `none`) when the greedy
end-of-sequence path returned a 2-tuple — then `token_to_text`. -/
def generate_text_from_prompt (textStandardize : String → String)
    (tg : TextGenerator) (cfg : GenConfig π) (prompt : String) (steps : ℕ) :
    Option (String × String × List ℚ) :=
  match generate_tokens tg cfg (textStandardize prompt) steps with
  | some (.triple out step lps) =>
    let ft := token_to_text tg prompt out step
    some (ft.1, ft.2, lps)
  | some (.pair _ _) => none
  | none => none

/-! ## Concrete fixtures used by counterexamples and witnesses -/

/-- An update rule whose deltas are exactly the gradients (state unused). -/
def gradIsDelta : Optimizer Unit := ⟨fun g s _ => (g, s)⟩

/-- A tokenizer stub: every prompt encodes to the single token `7`;
the end-of-sequence id is `1`. -/
def testTok : Tokenizer := ⟨fun _ => [7], fun l => toString l.length, 1⟩

/-- A generator over `testTok` with context window 4. -/
def testTG : TextGenerator := ⟨4, testTok⟩

/-- Greedy decoding against a model stub whose argmax token is the
end-of-sequence id `1` already at the first step. -/
def cfgGreedyEos : GenConfig Unit :=
  ⟨fun _ _ => ([[0, 5]], ()), fun x => x + 10, fun _ => 0, fun _ _ => 0,
   1, 0, 0, 0, 1, some ("greedy"), -1000⟩

/-- Greedy decoding against a model stub whose argmax token is the ordinary
token `0` at every step. -/
def cfgGreedyRepeat : GenConfig Unit :=
  ⟨fun _ _ => ([[5, 0]], ()), fun x => x + 10, fun _ => 0, fun _ _ => 0,
   1, 0, 0, 0, 1, some ("greedy"), -1000⟩

/-- An unrecognized sampling-method name together with a non-positive
temperature; the sampler always draws token `0`. -/
def cfgFoo : GenConfig Unit :=
  ⟨fun _ _ => ([[0, 5]], ()), fun x => x + 10, fun _ => 0, fun _ _ => 0,
   -1, 0, 0, 0, 1, some ("foo"), -1000⟩

/-- A sampling run whose very first draw is the end-of-sequence id `1`. -/
def cfgEosAtZero : GenConfig Unit :=
  ⟨fun _ _ => ([[0, 0]], ()), fun _ => 1, fun _ => 0, fun _ _ => 1,
   1, 0, 0, 0, 1, none, -1000⟩

/-- A sampling run drawing the distinct ordinary tokens `2, 3, 4, ...`. -/
def cfgDistinct : GenConfig Unit :=
  ⟨fun _ _ => ([[0, 0, 0, 0, 0, 0]], ()), fun _ => 1, fun _ => 0,
   fun s _ => s + 2, 1, 0, 0, 0, 1, none, -1000⟩

/-! ## Helper facts about the sampling-method name strings -/

theorem greedy_ne_nucleus : ("greedy" : String) ≠ "nucleus" := by decide

theorem greedy_ne_typical : ("greedy" : String) ≠ "typical" := by decide

theorem greedy_ne_topk : ("greedy" : String) ≠ "topk" := by decide

theorem foo_ne_nucleus : ("foo" : String) ≠ "nucleus" := by decide

theorem foo_ne_typical : ("foo" : String) ≠ "typical" := by decide

theorem foo_ne_topk : ("foo" : String) ≠ "topk" := by decide

theorem foo_ne_greedy : ("foo" : String) ≠ "greedy" := by decide

theorem none_ne_nucleus : (none : Option String) ≠ some ("nucleus") := by decide

theorem none_ne_typical : (none : Option String) ≠ some ("typical") := by decide

theorem none_ne_topk : (none : Option String) ≠ some ("topk") := by decide

theorem none_ne_greedy : (none : Option String) ≠ some ("greedy") := by decide

/-! ## Claim C1: `update_opt_state` -/

/-- Claim C1 (code bug): `update_opt_state` never feeds the supplied
gradients to the update rule — line 103 of xmap_train_functions.py rebinds
`grads` to `with_sharding_constraint(params, grad_spec)` — so the result is
independent of the `grads` argument, and on `params = [1]`, `grads = [5]`
with the delta-equals-gradient rule it returns params `[2]` (params plus
params) where the documented behaviour gives `[6]` (params plus grads). -/
theorem C1_update_rule_runs_on_params_not_grads :
    (∀ (σ τ : Type) (g1 g2 : List ℚ) (s : σ) (p : List ℚ)
        (opt : Optimizer σ) (sp : τ),
        update_opt_state g1 s p opt sp = update_opt_state g2 s p opt sp)
    ∧ update_opt_state [5] () [1] gradIsDelta () = ([2], ())
    ∧ update_opt_state_claimed [5] () [1] gradIsDelta () = ([6], ())
    ∧ ([2] : List ℚ) ≠ [6] := by
  refine ⟨fun σ τ g1 g2 s p opt sp => rfl, ?_, ?_, by norm_num⟩
  · norm_num [update_opt_state, with_sharding_constraint, apply_updates, gradIsDelta]
  · norm_num [update_opt_state_claimed, with_sharding_constraint, apply_updates,
      gradIsDelta]

/-! ## Claim C3: greedy end-of-sequence return -/

/-- Claim C3 (code bug): when greedy decoding selects the end-of-sequence
token at loop index 0, `generate_tokens` appends that token to the sequence
(the prompt `[7]` becomes `[7, 1]` with `1` the end-of-sequence id) and
returns the 2-tuple `(x, step)` — not the annotated 3-tuple — so the caller
`generate_text_from_prompt`, which unpacks three values, fails. -/
theorem C3_greedy_eos_returns_pair_with_eos_appended :
    generate_tokens testTG cfgGreedyEos "p" 3 = some (GenReturn.pair [7, 1] 0)
    ∧ testTG.pad_token ∈ [7, 1]
    ∧ generate_text_from_prompt id testTG cfgGreedyEos "p" 3 = none := by
  have h : generate_tokens testTG cfgGreedyEos "p" 3
      = some (GenReturn.pair [7, 1] 0) := by
    norm_num [generate_tokens, genLoop, genStep, mkInitState, applyFilter,
      applyRepetitionPenalty, softmaxQ, argmaxIdx, argmaxAux, pySliceLast,
      testTG, testTok, cfgGreedyEos, TextGenerator.pad_token,
      greedy_ne_nucleus, greedy_ne_typical, greedy_ne_topk]
  refine ⟨h, by norm_num [testTG, testTok, TextGenerator.pad_token], ?_⟩
  rw [generate_text_from_prompt]
  simp only [id]
  rw [h]

/-! ## Claim C9: attention cache bound -/

theorem pySliceLast_length_le (n : ℕ) (hn : 0 < n) (l : List α) :
    (pySliceLast n l).length ≤ n := by
  unfold pySliceLast
  rw [if_neg (Nat.pos_iff_ne_zero.mp hn)]
  simp only [List.length_drop]
  omega

/-- Counterexample to claim C9 as stated: the very first `use_cache=True`
call (no past) stores the fresh keys/values untruncated, so with
`block_size = 1` and two input positions the returned cache has sequence
length 2 > 1. -/
theorem C9_first_call_cache_untruncated :
    attention_cache_update (κ := ℕ) 1 none [0, 1] [2, 3] = ([0, 1], [2, 3])
    ∧ ¬((attention_cache_update (κ := ℕ) 1 none [0, 1] [2, 3]).1.length ≤ 1) := by
  constructor <;> decide

/-- Claim C9 as amended: whenever a past is supplied the update is
concatenate-then-truncate and both returned tensors have length at most
`block_size`; consequently, provided the *first* (no-past) call's input
length is at most `block_size`, the cache length stays at most `block_size`
after any number of further decoding steps. -/
theorem C9_cache_concat_truncate_bound (blockSize : ℕ) (hbs : 0 < blockSize)
    (first : List κ × List κ) (h1 : first.1.length ≤ blockSize)
    (h2 : first.2.length ≤ blockSize) :
    (∀ (past : List κ × List κ) (key value : List κ),
        attention_cache_update blockSize (some past) key value
          = (pySliceLast blockSize (past.1 ++ key),
             pySliceLast blockSize (past.2 ++ value))
        ∧ (attention_cache_update blockSize (some past) key value).1.length ≤ blockSize
        ∧ (attention_cache_update blockSize (some past) key value).2.length ≤ blockSize)
    ∧ ∀ rest : List (List κ × List κ),
        (iterCacheUpdates blockSize first rest).1.length ≤ blockSize
        ∧ (iterCacheUpdates blockSize first rest).2.length ≤ blockSize := by
  have hstep : ∀ (past : List κ × List κ) (key value : List κ),
      attention_cache_update blockSize (some past) key value
        = (pySliceLast blockSize (past.1 ++ key),
           pySliceLast blockSize (past.2 ++ value))
      ∧ (attention_cache_update blockSize (some past) key value).1.length ≤ blockSize
      ∧ (attention_cache_update blockSize (some past) key value).2.length ≤ blockSize := by
    intro past key value
    refine ⟨rfl, ?_, ?_⟩ <;>
      exact pySliceLast_length_le blockSize hbs _
  refine ⟨hstep, ?_⟩
  have haux : ∀ (rest : List (List κ × List κ)) (acc : List κ × List κ),
      acc.1.length ≤ blockSize → acc.2.length ≤ blockSize →
      (rest.foldl (fun past kv => attention_cache_update blockSize (some past) kv.1 kv.2)
          acc).1.length ≤ blockSize
      ∧ (rest.foldl (fun past kv => attention_cache_update blockSize (some past) kv.1 kv.2)
          acc).2.length ≤ blockSize := by
    intro rest
    induction rest with
    | nil => exact fun acc ha1 ha2 => ⟨ha1, ha2⟩
    | cons kv rest ih =>
      intro acc ha1 ha2
      rw [List.foldl_cons]
      exact ih _ (hstep acc kv.1 kv.2).2.1 (hstep acc kv.1 kv.2).2.2
  intro rest
  exact haux rest (attention_cache_update blockSize none first.1 first.2) h1 h2

/-- Witness for the amended C9 at `block_size = 1`, first input of length 1
and one further decoding step. -/
theorem C9_cache_concat_truncate_bound_witness :
    0 < 1
    ∧ ([1].length ≤ 1 ∧ [2].length ≤ 1)
    ∧ (iterCacheUpdates (κ := ℕ) 1 ([1], [2]) [([3], [4])]).1.length ≤ 1
    ∧ (iterCacheUpdates (κ := ℕ) 1 ([1], [2]) [([3], [4])]).2.length ≤ 1 :=
  ⟨by decide, ⟨by decide, by decide⟩,
   (C9_cache_concat_truncate_bound 1 (by decide) ([1], [2]) (by decide)
      (by decide)).2 [([3], [4])]⟩

/-! ## Claim C8: `get_minibatch` -/

theorem list_mapM_eq_map (f : α → Option β) (g : α → β) :
    ∀ l : List α, (∀ a ∈ l, f a = some (g a)) → l.mapM f = some (l.map g) := by
  intro l
  induction l with
  | nil => intro _; rfl
  | cons a l ih =>
    intro h
    rw [List.mapM_cons, h a (List.mem_cons_self a l),
      ih (fun b hb => h b (List.mem_cons_of_mem a hb))]
    rfl

theorem pytree_mapM_eq_map (f : α → Option β) (g : α → β) (t : PyTree α)
    (h : PyTree.All (fun a => f a = some (g a)) t) :
    t.mapM f = some (t.map g) := by
  induction h with
  | leaf ha => simp [PyTree.mapM, PyTree.map, ha]
  | @node ts hts ih =>
    have hl : ts.attach.mapM (fun t => PyTree.mapM f t.1)
        = some (ts.attach.map (fun t => PyTree.map g t.1)) :=
      list_mapM_eq_map _ _ _ (fun a _ => ih a.1 a.2)
    simp only [PyTree.mapM, PyTree.map, hl]
    rfl

theorem pytree_all_imp {P Q : α → Prop} (hPQ : ∀ a, P a → Q a) (t : PyTree α)
    (h : PyTree.All P t) : PyTree.All Q t := by
  induction h with
  | leaf ha => exact PyTree.All.leaf (hPQ _ ha)
  | node hts ih => exact PyTree.All.node (fun t ht => ih t ht)

/-- Counterexample to claim C8 as stated: at index `5`, outside the valid
range `[0, 2)` of the accumulation axis, `get_minibatch` does not fail — the
JAX `dynamic_slice` clamp maps the index to `1` and the call succeeds. -/
theorem C8_out_of_range_index_clamped_not_fail :
    ¬((5 : ℤ) < 2) ∧
    get_minibatch (PyTree.leaf [[[1], [2]]]) 5 = some (PyTree.leaf [[2]]) := by
  refine ⟨by decide, ?_⟩
  rw [get_minibatch]
  simp [PyTree.mapM, List.mapM.loop, dynamic_index_in_dim, clampIdx]

/-- Claim C8 as amended: on any batch tree whose accumulation axis is
nonempty at every leaf, `get_minibatch` selects one index along axis 1 of
every leaf, keeping the other axes; an out-of-range index is clamped to the
nearest valid index (never a failure), and an in-range index is used
exactly. -/
theorem C8_get_minibatch_selects_clamped (batch : PyTree (List (List (List ℚ))))
    (i : ℤ) (hne : PyTree.All (fun x => ∀ row ∈ x, row ≠ []) batch) :
    get_minibatch batch i = some (batch.map (selectClamped i))
    ∧ ∀ len : ℕ, 0 ≤ i → i < (len : ℤ) → clampIdx len i = i.toNat := by
  constructor
  · unfold get_minibatch
    apply pytree_mapM_eq_map
    apply pytree_all_imp _ batch hne
    intro x hx
    unfold selectClamped
    apply list_mapM_eq_map
    intro row hrow
    unfold dynamic_index_in_dim
    have hlen : 0 < row.length := List.length_pos.mpr (hx row hrow)
    have hclamp : clampIdx row.length i < row.length := by
      unfold clampIdx
      omega
    rw [List.get?_eq_getElem?, List.getD_eq_getElem?_getD,
      List.getElem?_eq_getElem hclamp]
    rfl
  · intro len h0 hlt
    unfold clampIdx
    omega

/-- Witness for the amended C8 at an in-range index. -/
theorem C8_get_minibatch_selects_clamped_witness :
    (∀ row ∈ [[[(1 : ℚ)], [2]]], row ≠ [])
    ∧ get_minibatch (PyTree.leaf [[[1], [2]]]) 0
        = some ((PyTree.leaf [[[(1 : ℚ)], [2]]]).map (selectClamped 0))
    ∧ clampIdx 2 0 = (0 : ℤ).toNat :=
  ⟨by decide,
   (C8_get_minibatch_selects_clamped _ 0 (PyTree.All.leaf (by decide))).1,
   (C8_get_minibatch_selects_clamped (PyTree.leaf [[[1], [2]]]) 0
      (PyTree.All.leaf (by decide))).2 2 (by decide) (by decide)⟩

/-! ## Claim C2: the gradient-accumulation loop -/

theorem foriLoop_succ (N : ℕ) (b : ℕ → α → α) (init : α) :
    foriLoop 0 (N + 1) b init = b N (foriLoop 0 N b init) := by
  unfold foriLoop
  simp only [Nat.sub_zero]
  rw [← List.range_eq_range', ← List.range_eq_range', List.range_succ,
    List.foldl_append]
  rfl

theorem getD_map_div (l : List ℚ) (c : ℚ) (j : ℕ) :
    (l.map (fun x => x / c)).getD j 0 = l.getD j 0 / c := by
  rw [List.getD_eq_getElem?_getD, List.getD_eq_getElem?_getD, List.getElem?_map]
  cases h : l[j]? with
  | none => simp [h]
  | some x => simp [h]

theorem getD_zipWith_add (a b : List ℚ) (j : ℕ) (hlen : a.length = b.length) :
    (List.zipWith (· + ·) a b).getD j 0 = a.getD j 0 + b.getD j 0 := by
  rw [List.getD_eq_getElem?_getD, List.getD_eq_getElem?_getD,
    List.getD_eq_getElem?_getD, List.getElem?_zipWith']
  cases ha : a[j]? with
  | none =>
    have hb : b[j]? = none := by
      rw [List.getElem?_eq_none_iff] at ha ⊢
      omega
    simp [ha, hb]
  | some x =>
    have hj : j < b.length := by
      rcases List.getElem?_eq_some_iff.mp ha with ⟨h, _⟩
      omega
    obtain ⟨y, hy⟩ : ∃ y, b[j]? = some y :=
      ⟨b.get ⟨j, hj⟩, by rw [List.getElem?_eq_getElem hj]; rfl⟩
    simp [ha, hy]

/-- The accumulator after `N` iterations of `cumul_minibatch_step` from
`(0, zeros_like params)`: the summed losses, a gradient tree of the same
shape, and the summed gradients per position. -/
theorem foriLoop_cumul (gradFn : ℕ → ℚ × List ℚ) (params : List ℚ) :
    ∀ N : ℕ, (∀ i, i < N → ((gradFn i).2).length = params.length) →
    (foriLoop 0 N (cumul_minibatch_step gradFn) (0, params.map (fun _ => 0))).1
      = ((List.range N).map (fun i => (gradFn i).1)).sum
    ∧ (foriLoop 0 N (cumul_minibatch_step gradFn)
        (0, params.map (fun _ => 0))).2.length = params.length
    ∧ ∀ j, (foriLoop 0 N (cumul_minibatch_step gradFn)
          (0, params.map (fun _ => 0))).2.getD j 0
        = ((List.range N).map (fun i => (gradFn i).2.getD j 0)).sum := by
  intro N
  induction N with
  | zero =>
    intro _
    refine ⟨by simp [foriLoop], by simp [foriLoop], ?_⟩
    intro j
    simp only [foriLoop, Nat.sub_zero, List.range', List.foldl_nil,
      List.range_zero, List.map_nil, List.sum_nil]
    rw [List.getD_eq_getElem?_getD, List.getElem?_map]
    cases h : params[j]? <;> simp [h]
  | succ N ih =>
    intro hlen
    have ihN := ih (fun i hi => hlen i (Nat.lt_succ_of_lt hi))
    rw [foriLoop_succ]
    refine ⟨?_, ?_, ?_⟩
    · rw [cumul_minibatch_step, List.range_succ]
      simp only [List.map_append, List.sum_append, List.map_cons,
        List.map_nil, List.sum_cons, List.sum_nil]
      rw [ihN.1]
      ring
    · rw [cumul_minibatch_step]
      simp only [List.length_zipWith]
      rw [ihN.2.1, hlen N (Nat.lt_succ_self N)]
      omega
    · intro j
      rw [cumul_minibatch_step]
      simp only
      rw [getD_zipWith_add _ _ j (by rw [ihN.2.1, hlen N (Nat.lt_succ_self N)]),
        ihN.2.2 j, List.range_succ]
      simp [List.sum_append]

/-- Claim C2: `train_step`'s accumulator starts from `(0, zeros)`, adds the
`N` per-microbatch `(loss, grad)` pairs in index order and divides by `N`,
so the loss in the emitted metrics is the arithmetic mean of the
per-microbatch losses and each returned gradient entry is the mean of the
corresponding per-microbatch gradient entries. -/
theorem C2_train_step_accumulator_means (gradFn : ℕ → ℚ × List ℚ)
    (params : List ℚ) (N : ℕ) (e : ℚ → ℚ)
    (hlen : ∀ i, i < N → ((gradFn i).2).length = params.length) :
    (train_step gradFn params N e).2.1
      = ((List.range N).map (fun i => (gradFn i).1)).sum / N
    ∧ (train_step gradFn params N e).1.length = params.length
    ∧ ∀ j, (train_step gradFn params N e).1.getD j 0
        = ((List.range N).map (fun i => (gradFn i).2.getD j 0)).sum / N := by
  have hc := foriLoop_cumul gradFn params N hlen
  have map_pmean : ∀ l : List ℚ, l.map pmean = l := fun l => List.map_id l
  unfold train_step
  simp only [pmean, map_pmean]
  refine ⟨?_, ?_, ?_⟩
  · rw [hc.1]
  · simp only [List.length_map]
    exact hc.2.1
  · intro j
    rw [getD_map_div, hc.2.2 j]

/-- Witness for C2 with two microbatches over a two-parameter tree:
losses `0, 1` and gradients `[0, 1], [1, 1]` average to loss `1/2` and
gradients `[1/2, 1]`. -/
theorem C2_train_step_accumulator_means_witness :
    (∀ i, i < 2 → ((fun i => ((i : ℚ), [(i : ℚ), 1])) i).2.length
        = [(3 : ℚ), 4].length)
    ∧ (train_step (fun i => ((i : ℚ), [(i : ℚ), 1])) [3, 4] 2 id).2.1
        = ((List.range 2).map (fun i => ((fun i => ((i : ℚ), [(i : ℚ), 1])) i).1)).sum / 2
    ∧ ∀ j, (train_step (fun i => ((i : ℚ), [(i : ℚ), 1])) [3, 4] 2 id).1.getD j 0
        = ((List.range 2).map
            (fun i => ((fun i => ((i : ℚ), [(i : ℚ), 1])) i).2.getD j 0)).sum / 2 :=
  ⟨fun i _ => rfl,
   (C2_train_step_accumulator_means (fun i => ((i : ℚ), [(i : ℚ), 1])) [3, 4] 2 id
      (fun i _ => rfl)).1,
   (C2_train_step_accumulator_means (fun i => ((i : ℚ), [(i : ℚ), 1])) [3, 4] 2 id
      (fun i _ => rfl)).2.2⟩

/-! ## Structure lemmas about one step of the decoding loop -/

theorem genStep_done_triple (cfg : GenConfig π) (pad step : ℕ) (st : GenState π)
    (x : List ℕ) (s : ℕ) (lps : List ℚ)
    (h : genStep cfg pad step st = .done (.triple x s lps)) :
    x = st.x ∧ s = step := by
  simp only [genStep] at h
  rcases hrow : (cfg.model st.xCond st.layerPast).1.getLast? with _ | row
  · simp only [hrow] at h
    exact absurd h (by simp)
  · simp only [hrow] at h
    rcases hfil : applyFilter cfg (applyRepetitionPenalty cfg.repetition_penalty
        st.generatedTokens (List.map (fun v => v / cfg.temperature) row)) with _ | l2
    · simp only [hfil] at h
      exact absurd h (by simp)
    · simp only [hfil] at h
      by_cases hg : cfg.sampling_method = some ("greedy")
      · rw [if_pos hg] at h
        by_cases hp : argmaxIdx (softmaxQ cfg.e l2) = pad
        · rw [if_pos hp] at h
          exact absurd h (by simp)
        · rw [if_neg hp] at h
          exact absurd h (by simp)
      · rw [if_neg hg] at h
        by_cases hp : cfg.sampler step (softmaxQ cfg.e l2) = pad
        · rw [if_pos hp] at h
          rw [StepOut.done.injEq, GenReturn.triple.injEq] at h
          exact ⟨h.1.symm, h.2.1.symm⟩
        · rw [if_neg hp] at h
          exact absurd h (by simp)

theorem genStep_cont_nongreedy (cfg : GenConfig π) (pad step : ℕ)
    (st st2 : GenState π) (hgr : cfg.sampling_method ≠ some ("greedy"))
    (h : genStep cfg pad step st = .cont st2) :
    ∃ next, next ≠ pad ∧ st2.x = st.x ++ [next]
      ∧ st2.generatedTokens
          = (if next ∈ st.generatedTokens then st.generatedTokens
             else st.generatedTokens ++ [next]) := by
  simp only [genStep] at h
  rcases hrow : (cfg.model st.xCond st.layerPast).1.getLast? with _ | row
  · simp only [hrow] at h
    exact absurd h (by simp)
  · simp only [hrow] at h
    rcases hfil : applyFilter cfg (applyRepetitionPenalty cfg.repetition_penalty
        st.generatedTokens (List.map (fun v => v / cfg.temperature) row)) with _ | l2
    · simp only [hfil] at h
      exact absurd h (by simp)
    · simp only [hfil] at h
      rw [if_neg hgr] at h
      by_cases hp : cfg.sampler step (softmaxQ cfg.e l2) = pad
      · rw [if_pos hp] at h
        exact absurd h (by simp)
      · rw [if_neg hp] at h
        rw [StepOut.cont.injEq] at h
        exact ⟨cfg.sampler step (softmaxQ cfg.e l2), hp, by rw [← h],
          by rw [← h]⟩

theorem genStep_nongreedy_total (cfg : GenConfig π) (pad step : ℕ)
    (st : GenState π) (hgr : cfg.sampling_method ≠ some ("greedy"))
    (hfil : ∀ logits, applyFilter cfg logits = some logits)
    (hrows : ∀ xc p, (cfg.model xc p).1 ≠ []) :
    (∃ lps, genStep cfg pad step st = .done (.triple st.x step lps))
    ∨ (∃ st2, genStep cfg pad step st = .cont st2) := by
  simp only [genStep]
  rcases hrow : (cfg.model st.xCond st.layerPast).1.getLast? with _ | row
  · exact absurd (List.getLast?_eq_none_iff.mp hrow)
      (hrows st.xCond st.layerPast)
  · simp only [hrow, hfil]
    rw [if_neg hgr]
    by_cases hp : cfg.sampler step (softmaxQ cfg.e (applyRepetitionPenalty
        cfg.repetition_penalty st.generatedTokens
        (List.map (fun v => v / cfg.temperature) row))) = pad
    · rw [if_pos hp]
      exact Or.inl ⟨_, rfl⟩
    · rw [if_neg hp]
      exact Or.inr ⟨_, rfl⟩

/-! ## Claim C5: no sampling-config validation exists -/

/-- Counterexample to claim C5 as stated: with the unrecognized method name
`"foo"` and the strictly negative temperature `-1`, `generate_tokens` raises
nothing — the model is called, the unfiltered distribution is sampled, and a
normal 3-tuple is returned. -/
theorem C5_no_error_on_invalid_config :
    ((some ("foo") : Option String) ∉
        [some ("nucleus"), some ("typical"), some ("topk"), some ("greedy")])
    ∧ cfgFoo.temperature < 0
    ∧ generate_tokens testTG cfgFoo "p" 1 = some (GenReturn.triple [7, 0] 1 [0]) := by
  refine ⟨by decide, by norm_num [cfgFoo], ?_⟩
  norm_num [generate_tokens, genLoop, genStep, mkInitState, applyFilter,
    applyRepetitionPenalty, softmaxQ, pySliceLast,
    testTG, testTok, cfgFoo, TextGenerator.pad_token,
    foo_ne_nucleus, foo_ne_typical, foo_ne_topk, foo_ne_greedy]

/-- Claim C5 as amended: `generate_tokens` performs no validation — for any
unrecognized or missing sampling-method name, no filter is applied (the
logits pass through `applyFilter` unchanged) and sampling proceeds on the
unfiltered softmax, even with a strictly negative temperature; the run
completes normally with a 3-tuple whenever the model returns nonempty
logits.  A temperature of exactly zero is likewise never checked, but its
zero division yields non-finite float logits and `torch.multinomial` then
raises; that failure mode is outside this exact-arithmetic embedding, so
nothing is asserted about it here. -/
theorem C5_unrecognized_method_unfiltered (tg : TextGenerator)
    (cfg : GenConfig π) (prompt : String) (steps : ℕ)
    (hm : cfg.sampling_method ∉
        [some ("nucleus"), some ("typical"), some ("topk"), some ("greedy")])
    (htemp : cfg.temperature < 0)
    (hrows : ∀ xc p, (cfg.model xc p).1 ≠ []) :
    (∀ logits, applyFilter cfg logits = some logits)
    ∧ ∃ x s lps, generate_tokens tg cfg prompt steps
        = some (GenReturn.triple x s lps) := by
  simp only [List.mem_cons, not_or] at hm
  obtain ⟨h1, h2, h3, h4, -⟩ := hm
  have hfil : ∀ logits, applyFilter cfg logits = some logits := by
    intro logits
    unfold applyFilter
    rw [if_neg h1, if_neg h2, if_neg h3]
  refine ⟨hfil, ?_⟩
  have htotal : ∀ (fuel step : ℕ) (st : GenState π),
      ∃ x s lps, genLoop cfg tg.pad_token fuel step st
        = some (GenReturn.triple x s lps) := by
    intro fuel
    induction fuel with
    | zero => exact fun step st => ⟨st.x, step, st.logprobs, rfl⟩
    | succ fuel ih =>
      intro step st
      rcases genStep_nongreedy_total cfg tg.pad_token step st h4 hfil hrows with
        ⟨lps, hdone⟩ | ⟨st2, hcont⟩
      · refine ⟨st.x, step, lps, ?_⟩
        rw [genLoop, hdone]
      · obtain ⟨x, s, lps, hrec⟩ := ih (step + 1) st2
        refine ⟨x, s, lps, ?_⟩
        rw [genLoop, hcont]
        exact hrec
  exact htotal steps 0 (mkInitState tg prompt)

/-- Witness for the amended C5 on the `"foo"`-method fixture with its
strictly negative temperature. -/
theorem C5_unrecognized_method_unfiltered_witness :
    ((some ("foo") : Option String) ∉
        [some ("nucleus"), some ("typical"), some ("topk"), some ("greedy")])
    ∧ cfgFoo.temperature < 0
    ∧ ((∀ logits, applyFilter cfgFoo logits = some logits)
        ∧ ∃ x s lps, generate_tokens testTG cfgFoo "p" 1
            = some (GenReturn.triple x s lps)) :=
  ⟨by decide, by norm_num [cfgFoo],
   C5_unrecognized_method_unfiltered testTG cfgFoo "p" 1 (by decide)
     (by norm_num [cfgFoo]) (fun xc p => by simp [cfgFoo])⟩

/-! ## Claim C10: a zero step count selects the whole sequence -/

/-- Any 3-tuple produced by the loop carries a step count at least the
starting index, and the boundary value only arises with the sequence equal
to the state's sequence. -/
theorem genLoop_triple_step_ge (cfg : GenConfig π) (pad : ℕ) :
    ∀ (fuel step : ℕ) (st : GenState π) (x : List ℕ) (s : ℕ) (lps : List ℚ),
      genLoop cfg pad fuel step st = some (GenReturn.triple x s lps) →
      step ≤ s ∧ (s = step → x = st.x) := by
  intro fuel
  induction fuel with
  | zero =>
    intro step st x s lps h
    rw [genLoop, Option.some.injEq, GenReturn.triple.injEq] at h
    exact ⟨h.2.1 ▸ Nat.le_refl step, fun _ => h.1.symm⟩
  | succ fuel ih =>
    intro step st x s lps h
    rw [genLoop] at h
    rcases hstep : genStep cfg pad step st with st2 | r | _
    · rw [hstep] at h
      have := ih (step + 1) st2 x s lps h
      exact ⟨Nat.le_of_succ_le this.1, fun hs => absurd this.1 (by omega)⟩
    · rw [hstep] at h
      rw [Option.some.injEq] at h
      subst h
      have := genStep_done_triple cfg pad step st x s lps hstep
      exact ⟨Nat.le_of_eq this.2.symm, fun _ => this.1⟩
    · rw [hstep] at h
      exact absurd h (by simp)

/-- Claim C10: when `generate_tokens` reports a step count of 0 (the
end-of-sequence token drawn at the very first loop index), the returned
sequence is exactly the encoded prompt, the slice `tok[0, -0:]` selects the
*entire* sequence, and `generate_text_from_prompt`'s newly-generated-span
output is the decoding of the whole token sequence, prompt tokens included —
not the empty string whenever that decoding is nonempty. -/
theorem C10_step_zero_decodes_whole_sequence (textStandardize : String → String)
    (tg : TextGenerator) (cfg : GenConfig π) (prompt : String) (steps : ℕ)
    (out : List ℕ) (lps : List ℚ)
    (h : generate_tokens tg cfg (textStandardize prompt) steps
        = some (GenReturn.triple out 0 lps)) :
    out = tg.tokenizer.encode (textStandardize prompt)
    ∧ pySliceLast 0 out = out
    ∧ (token_to_text tg prompt out 0).2 = tg.tokenizer.decode out
    ∧ generate_text_from_prompt textStandardize tg cfg prompt steps
        = some (prompt ++ tg.tokenizer.decode out, tg.tokenizer.decode out, lps) := by
  rw [generate_tokens] at h
  have hx := (genLoop_triple_step_ge cfg tg.pad_token steps 0
    (mkInitState tg (textStandardize prompt)) out 0 lps h).2 rfl
  have hout : out = tg.tokenizer.encode (textStandardize prompt) := by
    rw [hx]; rfl
  have hslice : pySliceLast 0 out = out := by
    rw [pySliceLast]
    simp
  refine ⟨hout, hslice, ?_, ?_⟩
  · simp only [token_to_text]
    rw [hslice]
  · simp only [generate_text_from_prompt, generate_tokens, h, token_to_text]
    rw [hslice]

/-- Witness for C10: a sampling run whose first draw is the end-of-sequence
id returns step count 0, and the newly generated span decodes the whole
prompt token sequence. -/
theorem C10_step_zero_decodes_whole_sequence_witness :
    generate_tokens testTG cfgEosAtZero (id "p") 3
        = some (GenReturn.triple [7] 0 [0])
    ∧ ([7] : List ℕ) = testTG.tokenizer.encode (id "p")
    ∧ pySliceLast 0 [7] = [7]
    ∧ (token_to_text testTG "p" [7] 0).2 = testTG.tokenizer.decode [7]
    ∧ generate_text_from_prompt id testTG cfgEosAtZero "p" 3
        = some ("p" ++ testTG.tokenizer.decode [7],
            testTG.tokenizer.decode [7], [0]) := by
  have h : generate_tokens testTG cfgEosAtZero (id "p") 3
      = some (GenReturn.triple [7] 0 [0]) := by
    norm_num [generate_tokens, genLoop, genStep, mkInitState, applyFilter,
      applyRepetitionPenalty, softmaxQ, pySliceLast,
      testTG, testTok, cfgEosAtZero, TextGenerator.pad_token,
      none_ne_nucleus, none_ne_typical, none_ne_topk, none_ne_greedy]
  have := C10_step_zero_decodes_whole_sequence id testTG cfgEosAtZero "p" 3
    [7] [0] h
  exact ⟨h, this.1, this.2.1, this.2.2.1, this.2.2.2⟩

/-! ## Claim C4: repetition-penalty history and direction -/

/-- Effect of the repetition-penalty loop on each logit position: for a
duplicate-free in-range history, a history token's logit is multiplied by
the penalty when negative and divided by it otherwise; other logits are
untouched. -/
theorem applyRepPenalty_getD (rp : ℚ) :
    ∀ (hist : List ℕ) (logits : List ℚ), hist.Nodup →
      (∀ t ∈ hist, t < logits.length) →
      ∀ j, j < logits.length →
        (applyRepetitionPenalty rp hist logits).getD j 0
          = if j ∈ hist then
              (if logits.getD j 0 < 0 then logits.getD j 0 * rp
               else logits.getD j 0 / rp)
            else logits.getD j 0 := by
  intro hist
  induction hist with
  | nil =>
    intro logits _ _ j hj
    simp [applyRepetitionPenalty]
  | cons hd tl ih =>
    intro logits hnd hbound j hj
    have hhd : hd < logits.length := hbound hd (List.mem_cons_self hd tl)
    have hhdtl : hd ∉ tl := (List.nodup_cons.mp hnd).1
    set l2 := (if logits.getD hd 0 < 0 then logits.set hd (logits.getD hd 0 * rp)
               else logits.set hd (logits.getD hd 0 / rp)) with hl2
    have hstep : applyRepetitionPenalty rp (hd :: tl) logits
        = applyRepetitionPenalty rp tl l2 := by
      rw [applyRepetitionPenalty, applyRepetitionPenalty, List.foldl_cons, hl2]
    have hlen2 : l2.length = logits.length := by
      rw [hl2]
      split <;> simp [List.length_set]
    have hget_ne : ∀ i, i ≠ hd → l2.getD i 0 = logits.getD i 0 := by
      intro i hi
      rw [hl2]
      split <;>
        · simp only [List.getD_eq_getElem?_getD]
          rw [List.getElem?_set_ne (Ne.symm hi)]
    have hget_hd : l2.getD hd 0
        = (if logits.getD hd 0 < 0 then logits.getD hd 0 * rp
           else logits.getD hd 0 / rp) := by
      by_cases hc : logits.getD hd 0 < 0
      · rw [hl2, if_pos hc, if_pos hc]
        simp only [List.getD_eq_getElem?_getD]
        rw [List.getElem?_set_self hhd]
        rfl
      · rw [hl2, if_neg hc, if_neg hc]
        simp only [List.getD_eq_getElem?_getD]
        rw [List.getElem?_set_self hhd]
        rfl
    have ihl2 := ih l2 (List.Nodup.of_cons hnd)
      (fun t ht => hlen2 ▸ hbound t (List.mem_cons_of_mem hd ht))
      j (hlen2 ▸ hj)
    rw [hstep, ihl2]
    by_cases hjtl : j ∈ tl
    · have hjhd : j ≠ hd := fun he => hhdtl (he ▸ hjtl)
      rw [if_pos hjtl, if_pos (List.mem_cons_of_mem hd hjtl), hget_ne j hjhd]
    · by_cases hjhd : j = hd
      · subst hjhd
        rw [if_neg hjtl, if_pos (List.mem_cons_self j tl), hget_hd]
      · rw [if_neg hjtl, hget_ne j hjhd,
          if_neg (by simp [List.mem_cons, hjhd, hjtl])]

/-- Loop invariant of the non-greedy sampling branch: the generated-token
history stays duplicate-free and holds exactly the tokens appended to the
sequence after the prompt. -/
theorem iterGen_invariant (cfg : GenConfig π) (pad n : ℕ)
    (hgr : cfg.sampling_method ≠ some ("greedy")) :
    ∀ (k step : ℕ) (st st2 : GenState π),
      iterGen cfg pad k step st = some st2 →
      st.generatedTokens.Nodup →
      (∀ t, t ∈ st.generatedTokens ↔ t ∈ st.x.drop n) →
      n ≤ st.x.length →
      st2.generatedTokens.Nodup
      ∧ (∀ t, t ∈ st2.generatedTokens ↔ t ∈ st2.x.drop n)
      ∧ n ≤ st2.x.length := by
  intro k
  induction k with
  | zero =>
    intro step st st2 h h1 h2 h3
    rw [iterGen, Option.some.injEq] at h
    subst h
    exact ⟨h1, h2, h3⟩
  | succ k ih =>
    intro step st st2 h h1 h2 h3
    rw [iterGen] at h
    rcases hstep : genStep cfg pad step st with stc | r | _ <;>
      simp only [hstep] at h
    case done => exact Option.noConfusion h
    case err => exact Option.noConfusion h
    obtain ⟨next, hnp, hx, hgen⟩ :=
      genStep_cont_nongreedy cfg pad step st stc hgr hstep
    apply ih (step + 1) stc st2 h
    · rw [hgen]
      split
      · exact h1
      · next hmem =>
        rw [List.nodup_append]
        exact ⟨h1, List.nodup_singleton next,
          by simp [List.disjoint_singleton, hmem]⟩
    · intro t
      rw [hgen, hx, List.drop_append_of_le_length h3]
      by_cases hmem : next ∈ st.generatedTokens
      · rw [if_pos hmem]
        simp only [List.mem_append, List.mem_singleton]
        constructor
        · exact fun ht => Or.inl ((h2 t).mp ht)
        · rintro (ht | rfl)
          · exact (h2 t).mpr ht
          · exact hmem
      · rw [if_neg hmem]
        simp only [List.mem_append, List.mem_singleton]
        exact or_congr (h2 t) Iff.rfl
    · rw [hx, List.length_append]
      simp
      omega

/-- Counterexample to claim C4 as stated ("for every sampling method"): in
greedy mode the generated-token history is never updated — after one step
that selected the ordinary token `0`, the history is still empty, so the
previously selected non-end-of-sequence token appears 0 times, not once. -/
theorem C4_greedy_history_not_recorded :
    (iterGen cfgGreedyRepeat testTG.pad_token 1 0 (mkInitState testTG "p")).map
        (fun s => (s.x, s.generatedTokens)) = some ([7, 0], ([] : List ℕ))
    ∧ (0 : ℕ) ∈ [7, 0].drop 1
    ∧ (0 : ℕ) ≠ testTG.pad_token
    ∧ List.count 0 ([] : List ℕ) ≠ 1 := by
  refine ⟨?_, by decide, by decide, by decide⟩
  norm_num [iterGen, genStep, mkInitState, applyFilter,
    applyRepetitionPenalty, softmaxQ, argmaxIdx, argmaxAux, pySliceLast,
    testTG, testTok, cfgGreedyRepeat, TextGenerator.pad_token,
    greedy_ne_nucleus, greedy_ne_typical, greedy_ne_topk]

/-- Claim C4 as amended (restricted to the non-greedy sampling methods,
which are the only ones that maintain the history): at every decoding step
the generated-token history is duplicate-free and contains exactly the
previously selected (necessarily non-end-of-sequence) tokens — hence each
appears exactly once — and the repetition-penalty loop divides a history
token's logit by the penalty when it is non-negative and multiplies it by
the penalty when it is negative, leaving all other logits unchanged. -/
theorem C4_nongreedy_history_once_and_penalty_direction (cfg : GenConfig π)
    (tg : TextGenerator) (prompt : String) (pad : ℕ)
    (hgr : cfg.sampling_method ≠ some ("greedy")) :
    (∀ (k : ℕ) (st2 : GenState π),
        iterGen cfg pad k 0 (mkInitState tg prompt) = some st2 →
        st2.generatedTokens.Nodup
        ∧ ∀ t, t ∈ st2.generatedTokens
            ↔ t ∈ st2.x.drop (tg.tokenizer.encode prompt).length)
    ∧ (∀ (logits : List ℚ) (hist : List ℕ) (rp : ℚ), hist.Nodup →
        (∀ t ∈ hist, t < logits.length) →
        ∀ j, j < logits.length →
          (applyRepetitionPenalty rp hist logits).getD j 0
            = if j ∈ hist then
                (if logits.getD j 0 < 0 then logits.getD j 0 * rp
                 else logits.getD j 0 / rp)
              else logits.getD j 0) := by
  constructor
  · intro k st2 h
    have hinv := iterGen_invariant cfg pad (tg.tokenizer.encode prompt).length
      hgr k 0 (mkInitState tg prompt) st2 h (by simp [mkInitState])
      (by intro t; simp [mkInitState, List.drop_length])
      (by simp [mkInitState])
    exact ⟨hinv.1, hinv.2.1⟩
  · exact fun logits hist rp h1 h2 j hj =>
      applyRepPenalty_getD rp hist logits h1 h2 j hj

/-- Witness for the amended C4: two sampling steps drawing the distinct
tokens 2 and 3 leave the history `[2, 3]`, duplicate-free and equal to the
tokens after the prompt; the penalty instance divides a non-negative logit
and multiplies a negative one. -/
theorem C4_nongreedy_history_once_and_penalty_direction_witness :
    ((none : Option String) ≠ some ("greedy"))
    ∧ (List.Nodup ([2, 3] : List ℕ)
        ∧ ∀ t, t ∈ ([2, 3] : List ℕ) ↔ t ∈ [7, 2, 3].drop 1)
    ∧ (applyRepetitionPenalty 2 [0, 1] [1, -1]).getD 0 0
        = (if (0 : ℕ) ∈ [0, 1] then
            (if ([1, -1].getD 0 0 : ℚ) < 0 then [1, -1].getD 0 0 * 2
             else [1, -1].getD 0 0 / 2)
           else [1, -1].getD 0 0) := by
  have hrun : iterGen cfgDistinct testTG.pad_token 2 0 (mkInitState testTG "p")
      = some ⟨[7, 2, 3], [3], some (), [2, 3], [0, 0]⟩ := by
    norm_num [iterGen, genStep, mkInitState, applyFilter,
      applyRepetitionPenalty, softmaxQ, pySliceLast,
      testTG, testTok, cfgDistinct, TextGenerator.pad_token,
      none_ne_nucleus, none_ne_typical, none_ne_topk, none_ne_greedy]
  have hmain := C4_nongreedy_history_once_and_penalty_direction cfgDistinct
    testTG "p" testTG.pad_token none_ne_greedy
  have h1 := hmain.1 2 ⟨[7, 2, 3], [3], some (), [2, 3], [0, 0]⟩ hrun
  have h2 := hmain.2 [1, -1] [0, 1] 2 (by decide) (by decide) 0 (by decide)
  refine ⟨none_ne_greedy, ?_, h2⟩
  constructor
  · exact h1.1
  · intro t
    simp

/-! ## Shared facts about cumulative sums, softmax and masks -/

theorem cumsumFrom_length : ∀ (l : List ℚ) (acc : ℚ),
    (cumsumFrom acc l).length = l.length := by
  intro l
  induction l with
  | nil => intro acc; rfl
  | cons x xs ih =>
    intro acc
    simp [cumsumFrom, ih]

theorem cumsum_length (l : List ℚ) : (cumsum l).length = l.length :=
  cumsumFrom_length l 0

theorem cumsumFrom_get? : ∀ (l : List ℚ) (acc : ℚ) (j : ℕ), j < l.length →
    (cumsumFrom acc l).get? j = some (acc + (l.take (j + 1)).sum) := by
  intro l
  induction l with
  | nil =>
    intro acc j hj
    exact absurd hj (by simp)
  | cons x xs ih =>
    intro acc j hj
    cases j with
    | zero => simp [cumsumFrom]
    | succ j =>
      rw [cumsumFrom]
      rw [List.get?_cons_succ, ih (acc + x) j (by simpa using hj)]
      rw [List.take_succ_cons, List.sum_cons, ← add_assoc]

theorem cumsum_getD (l : List ℚ) (j : ℕ) (hj : j < l.length) :
    (cumsum l).getD j 0 = (l.take (j + 1)).sum := by
  rw [cumsum, List.getD_eq_getElem?_getD, ← List.get?_eq_getElem?,
    cumsumFrom_get? l 0 j hj]
  simp

theorem cumsum_getD_last (l : List ℚ) (hl : l ≠ []) :
    (cumsum l).getD (l.length - 1) 0 = l.sum := by
  have hpos : 0 < l.length := List.length_pos.mpr hl
  rw [cumsum_getD l (l.length - 1) (by omega)]
  have : l.length - 1 + 1 = l.length := by omega
  rw [this, List.take_length]

theorem cumsum_mono (l : List ℚ) (hpos : ∀ x ∈ l, 0 ≤ x) (j k : ℕ)
    (hjk : j ≤ k) (hk : k < l.length) :
    (cumsum l).getD j 0 ≤ (cumsum l).getD k 0 := by
  rw [cumsum_getD l j (by omega), cumsum_getD l k hk]
  have hsplit : l.take (k + 1) = l.take (j + 1) ++ (l.drop (j + 1)).take (k - j) := by
    rw [← List.take_add]
    congr 1
    omega
  rw [hsplit, List.sum_append]
  have h2 : 0 ≤ ((l.drop (j + 1)).take (k - j)).sum :=
    List.sum_nonneg (fun x hx =>
      hpos x (List.mem_of_mem_drop (List.mem_of_mem_take hx)))
  linarith

theorem sum_map_div (l : List ℚ) (f : ℚ → ℚ) (c : ℚ) :
    (l.map (fun x => f x / c)).sum = (l.map f).sum / c := by
  induction l with
  | nil => simp
  | cons x xs ih =>
    simp only [List.map_cons, List.sum_cons, ih]
    ring

theorem sum_map_pos (e : ℚ → ℚ) (he : ∀ x, 0 < e x) (l : List ℚ)
    (hl : l ≠ []) : 0 < (l.map e).sum := by
  cases l with
  | nil => exact absurd rfl hl
  | cons x xs =>
    simp only [List.map_cons, List.sum_cons]
    have h2 : 0 ≤ (xs.map e).sum :=
      List.sum_nonneg (by
        intro y hy
        obtain ⟨a, _, ha⟩ := List.mem_map.mp hy
        exact le_of_lt (ha ▸ he a))
    linarith [he x]

theorem softmaxQ_length (e : ℚ → ℚ) (l : List ℚ) :
    (softmaxQ e l).length = l.length := by
  simp [softmaxQ]

theorem softmaxQ_sum (e : ℚ → ℚ) (he : ∀ x, 0 < e x) (l : List ℚ)
    (hl : l ≠ []) : (softmaxQ e l).sum = 1 := by
  rw [softmaxQ, sum_map_div]
  exact div_self (ne_of_gt (sum_map_pos e he l hl))

theorem softmaxQ_nonneg (e : ℚ → ℚ) (he : ∀ x, 0 < e x) (l : List ℚ) :
    ∀ x ∈ softmaxQ e l, 0 ≤ x := by
  intro x hx
  obtain ⟨a, ha, hax⟩ := List.mem_map.mp hx
  have hl : l ≠ [] := fun h => by simp [h] at ha
  exact hax ▸ div_nonneg (le_of_lt (he a))
    (le_of_lt (sum_map_pos e he l hl))

theorem zip_filterMap_true_length : ∀ (a : List ℕ) (b : List Bool),
    a.length = b.length →
    ((List.zip a b).filterMap (fun q => if q.2 then some q.1 else none)).length
      = b.count true := by
  intro a
  induction a with
  | nil =>
    intro b hb
    have : b = [] := List.length_eq_zero.mp hb.symm
    subst this
    rfl
  | cons x xs ih =>
    intro b hb
    cases b with
    | nil => exact absurd hb (by simp)
    | cons y ys =>
      have hys := ih ys (by simpa using hb)
      cases y with
      | true =>
        simp [List.zip_cons_cons, List.filterMap_cons, hys, List.count_cons]
      | false =>
        simp [List.zip_cons_cons, List.filterMap_cons, hys, List.count_cons]

theorem count_true_le_of_prefix_false : ∀ (b : List Bool) (m : ℕ),
    (∀ r, r < m → b.getD r false = false) → m ≤ b.length →
    b.count true ≤ b.length - m := by
  intro b
  induction b with
  | nil => intro m _ hm; simp
  | cons x xs ih =>
    intro m h hm
    cases m with
    | zero => simpa using List.count_le_length true (x :: xs)
    | succ m =>
      have hx : x = false := h 0 (Nat.succ_pos m)
      subst hx
      rw [List.count_cons_of_ne (by decide)]
      have := ih m (fun r hr => h (r + 1) (by omega)) (by simpa using hm)
      simp only [List.length_cons]
      omega

theorem maskfill_getD (logits : List ℚ) (rem : List ℕ) (fv : ℚ) (j : ℕ)
    (hj : j < logits.length) :
    (logits.enum.map (fun q => if q.1 ∈ rem then fv else q.2)).getD j 0
      = if j ∈ rem then fv else logits.getD j 0 := by
  rw [List.getD_eq_getElem?_getD, List.getElem?_map, List.getElem?_enum,
    List.getElem?_eq_getElem hj]
  rw [List.getD_eq_getElem?_getD, List.getElem?_eq_getElem hj]
  simp

/-! ## Claim C7: typical sampling stays in bounds and keeps enough tokens -/

theorem getD_mem_of_lt (l : List ℚ) (j : ℕ) (hj : j < l.length) :
    l.getD j 0 ∈ l := by
  rw [List.getD_eq_getElem?_getD, List.getElem?_eq_getElem hj]
  exact List.getElem_mem hj

theorem typicalSorted_length (e lgf : ℚ → ℚ) (logits : List ℚ) :
    (typicalSorted e lgf logits).length = logits.length := by
  rw [typicalSorted, (List.perm_insertionSort ascRel _).length_eq]
  simp [typicalShiftedScores]

theorem typicalCumProbs_length (e lgf : ℚ → ℚ) (logits : List ℚ) :
    (typicalCumProbs e lgf logits).length = logits.length := by
  rw [typicalCumProbs, cumsum_length, softmaxQ_length]
  simp [typicalSorted_length]

theorem typicalCumProbs_last (e lgf : ℚ → ℚ) (he : ∀ x, 0 < e x)
    (logits : List ℚ) (hne : logits ≠ []) :
    (typicalCumProbs e lgf logits).getD (logits.length - 1) 0 = 1 := by
  have hV : 0 < logits.length := List.length_pos.mpr hne
  rw [typicalCumProbs]
  have hlen : (((typicalSorted e lgf logits).map Prod.fst).map
      (fun i => logits.getD i 0)).length = logits.length := by
    simp [typicalSorted_length]
  have hnil : ((typicalSorted e lgf logits).map Prod.fst).map
      (fun i => logits.getD i 0) ≠ [] := by
    intro hcon
    rw [hcon] at hlen
    simp at hlen
    omega
  have hsmlen : (softmaxQ e (((typicalSorted e lgf logits).map Prod.fst).map
      (fun i => logits.getD i 0))).length = logits.length := by
    rw [softmaxQ_length, hlen]
  have hidx : logits.length - 1
      = (softmaxQ e (((typicalSorted e lgf logits).map Prod.fst).map
          (fun i => logits.getD i 0))).length - 1 := by
    rw [hsmlen]
  rw [hidx, cumsum_getD_last _ (List.length_pos.mp (by rw [hsmlen]; omega))]
  exact softmaxQ_sum e he _ hnil

theorem typicalLastInd_lt (e lgf : ℚ → ℚ) (he : ∀ x, 0 < e x)
    (logits : List ℚ) (mass : ℚ) (hmass : mass ≤ 1) (hne : logits ≠ []) :
    typicalLastInd e lgf logits mass < logits.length := by
  have hV : 0 < logits.length := List.length_pos.mpr hne
  have hlen := typicalCumProbs_length e lgf logits
  have hmem : (1 : ℚ) ∈ typicalCumProbs e lgf logits := by
    have := getD_mem_of_lt (typicalCumProbs e lgf logits) (logits.length - 1)
      (by omega)
    rwa [typicalCumProbs_last e lgf he logits hne] at this
  have hlt : ((typicalCumProbs e lgf logits).filter
      (fun c => decide (c < mass))).length
      < (typicalCumProbs e lgf logits).length :=
    List.length_filter_lt_length_iff_exists.mpr
      ⟨1, hmem, by simpa using not_lt.mpr hmass⟩
  rw [typicalLastInd]
  omega

theorem typicalSortedScores_mono (e lgf : ℚ → ℚ) (logits : List ℚ)
    (r k : ℕ) (hrk : r ≤ k) (hk : k < (typicalSorted e lgf logits).length) :
    ((typicalSorted e lgf logits).map Prod.snd).getD r 0
      ≤ ((typicalSorted e lgf logits).map Prod.snd).getD k 0 := by
  rcases Nat.eq_or_lt_of_le hrk with heq | hlt
  · rw [heq]
  · have hr : r < (typicalSorted e lgf logits).length := by omega
    have hs : List.Sorted ascRel (typicalSorted e lgf logits) := by
      rw [typicalSorted]
      exact List.sorted_insertionSort ascRel _
    have hrel := List.Sorted.rel_get_of_lt hs
      (show (⟨r, hr⟩ : Fin _) < ⟨k, hk⟩ from hlt)
    have hle : ((typicalSorted e lgf logits).get ⟨r, hr⟩).2
        ≤ ((typicalSorted e lgf logits).get ⟨k, hk⟩).2 := by
      rcases hrel with h | ⟨h, _⟩
      · exact le_of_lt h
      · exact le_of_eq h
    rw [List.getD_eq_getElem?_getD, List.getElem?_map,
      List.getElem?_eq_getElem hr, List.getD_eq_getElem?_getD,
      List.getElem?_map, List.getElem?_eq_getElem hk]
    simpa using hle

theorem typicalFinalMask_length (e lgf : ℚ → ℚ) (logits : List ℚ)
    (thr : ℚ) (minKeep : ℕ) :
    (typicalFinalMask e lgf logits thr minKeep).length = logits.length := by
  rw [typicalFinalMask]
  split <;> simp [typicalSorted_length]

theorem getD_map_decide_lt (c : ℚ) (l : List ℚ) (r : ℕ) (hr : r < l.length) :
    (l.map (fun sc => decide (c < sc))).getD r false = decide (c < l.getD r 0) := by
  rw [List.getD_eq_getElem?_getD, List.getElem?_map,
    List.getElem?_eq_getElem hr, List.getD_eq_getElem?_getD,
    List.getElem?_eq_getElem hr]
  rfl

theorem getD_enum_map_if (b : List Bool) (minKeep r : ℕ) (hr : r < b.length) :
    (b.enum.map (fun q => if q.1 < minKeep then false else q.2)).getD r false
      = if r < minKeep then false else b.getD r false := by
  rw [List.getD_eq_getElem?_getD, List.getElem?_map, List.getElem?_enum,
    List.getElem?_eq_getElem hr, List.getD_eq_getElem?_getD,
    List.getElem?_eq_getElem hr]
  rfl

theorem typicalFinalMask_count (e lgf : ℚ → ℚ) (logits : List ℚ) (mass : ℚ)
    (minKeep : ℕ) (hlast : typicalLastInd e lgf logits mass < logits.length)
    (hmk : minKeep ≤ logits.length) (hV : 0 < logits.length) :
    (typicalFinalMask e lgf logits
      (((typicalSorted e lgf logits).map Prod.snd).getD
        (typicalLastInd e lgf logits mass) 0) minKeep).count true
      + minKeep ≤ logits.length := by
  have hsc : ((typicalSorted e lgf logits).map Prod.snd).length
      = logits.length := by
    rw [List.length_map, typicalSorted_length]
  have hbase : ∀ r, r ≤ typicalLastInd e lgf logits mass →
      (((typicalSorted e lgf logits).map Prod.snd).map
        (fun sc => decide ((((typicalSorted e lgf logits).map Prod.snd).getD
          (typicalLastInd e lgf logits mass) 0) < sc))).getD r false
      = false := by
    intro r hr
    rw [getD_map_decide_lt _ _ r (by rw [hsc]; omega)]
    exact decide_eq_false (not_lt.mpr
      (typicalSortedScores_mono e lgf logits r
        (typicalLastInd e lgf logits mass) hr
        (by rw [typicalSorted_length]; omega)))
  have hblen : (((typicalSorted e lgf logits).map Prod.snd).map
      (fun sc => decide ((((typicalSorted e lgf logits).map Prod.snd).getD
        (typicalLastInd e lgf logits mass) 0) < sc))).length
      = logits.length := by
    rw [List.length_map, hsc]
  by_cases h1 : 1 < minKeep
  · simp only [typicalFinalMask, if_pos h1]
    have hpref : ∀ r, r < minKeep →
        ((((typicalSorted e lgf logits).map Prod.snd).map
            (fun sc => decide ((((typicalSorted e lgf logits).map Prod.snd).getD
              (typicalLastInd e lgf logits mass) 0) < sc))).enum.map
          (fun q => if q.1 < minKeep then false else q.2)).getD r false
        = false := by
      intro r hr
      rw [getD_enum_map_if _ minKeep r (by rw [hblen]; omega), if_pos hr]
    have hcount := count_true_le_of_prefix_false _ minKeep hpref
      (by
        simp only [List.length_map, List.enum_length, typicalSorted_length]
        exact hmk)
    simp only [List.length_map, List.enum_length, typicalSorted_length] at hcount
    omega
  · simp only [typicalFinalMask, if_neg h1]
    have hcount := count_true_le_of_prefix_false _
      (typicalLastInd e lgf logits mass + 1)
      (fun r hr => hbase r (by omega)) (by rw [hblen]; omega)
    omega

/-- Counterexample to claim C7 as stated ("for every mass value"): with
`mass = 2` every cumulative probability is below the mass, `last_ind` equals
the vocabulary size, and the `gather` at `last_ind` is out of bounds — the
call fails instead of staying in bounds. -/
theorem C7_mass_above_one_out_of_bounds :
    ¬((2 : ℚ) ≤ 1)
    ∧ typical_sampling_logits (fun _ => 1) (fun _ => 0) [0, 0] 2 1 (-1000)
        = none := by
  refine ⟨by norm_num, ?_⟩
  norm_num [typical_sampling_logits, typicalIndicesToRemove,
    typicalThreshold?, typicalLastInd, typicalCumProbs, typicalSorted,
    typicalShiftedScores, softmaxQ, cumsum, cumsumFrom, ascRel,
    List.insertionSort, List.orderedInsert]

/-- Claim C7 as amended: for every mass at most 1, every nonempty logits
vector and every `min_tokens_to_keep` at most the vocabulary size, the
`last_ind` gather stays in bounds (the function returns a value rather than
raising), and at least `min_tokens_to_keep` tokens are left unfiltered with
their original logits. -/
theorem C7_typical_min_tokens_in_bounds (e lgf : ℚ → ℚ) (he : ∀ x, 0 < e x)
    (logits : List ℚ) (mass : ℚ) (minKeep : ℕ) (fv : ℚ)
    (hmass : mass ≤ 1) (hne : logits ≠ []) (hmk : minKeep ≤ logits.length) :
    ∃ rem out,
      typicalIndicesToRemove e lgf logits mass minKeep = some rem
      ∧ typical_sampling_logits e lgf logits mass minKeep fv = some out
      ∧ rem.length + minKeep ≤ logits.length
      ∧ ∀ j, j < logits.length → j ∉ rem →
          out.getD j 0 = logits.getD j 0 := by
  have hV : 0 < logits.length := List.length_pos.mpr hne
  have hlast := typicalLastInd_lt e lgf he logits mass hmass hne
  have hsc : ((typicalSorted e lgf logits).map Prod.snd).length
      = logits.length := by
    rw [List.length_map, typicalSorted_length]
  have hthr : typicalThreshold? e lgf logits mass
      = some (((typicalSorted e lgf logits).map Prod.snd).getD
          (typicalLastInd e lgf logits mass) 0) := by
    rw [typicalThreshold?, List.get?_eq_getElem?,
      List.getElem?_eq_getElem (by rw [hsc]; omega),
      List.getD_eq_getElem?_getD, List.getElem?_eq_getElem (by rw [hsc]; omega)]
    rfl
  have hrem : typicalIndicesToRemove e lgf logits mass minKeep
      = some ((List.zip ((typicalSorted e lgf logits).map Prod.fst)
          (typicalFinalMask e lgf logits
            (((typicalSorted e lgf logits).map Prod.snd).getD
              (typicalLastInd e lgf logits mass) 0) minKeep)).filterMap
        (fun q => if q.2 then some q.1 else none)) := by
    rw [typicalIndicesToRemove]
    simp only [hthr]
  have hout : typical_sampling_logits e lgf logits mass minKeep fv
      = some (logits.enum.map (fun q =>
          if q.1 ∈ (List.zip ((typicalSorted e lgf logits).map Prod.fst)
              (typicalFinalMask e lgf logits
                (((typicalSorted e lgf logits).map Prod.snd).getD
                  (typicalLastInd e lgf logits mass) 0) minKeep)).filterMap
            (fun q => if q.2 then some q.1 else none)
          then fv else q.2)) := by
    rw [typical_sampling_logits]
    simp only [hrem]
  refine ⟨_, _, hrem, hout, ?_, ?_⟩
  · rw [zip_filterMap_true_length _ _ (by
      rw [List.length_map, typicalSorted_length, typicalFinalMask_length])]
    exact typicalFinalMask_count e lgf logits mass minKeep hlast hmk hV
  · intro j hj hjrem
    rw [maskfill_getD logits _ fv j hj, if_neg hjrem]

/-- Witness for the amended C7 on two equal logits with mass `1/2` and
`min_tokens_to_keep = 1`. -/
theorem C7_typical_min_tokens_in_bounds_witness :
    (∀ x : ℚ, 0 < (fun _ : ℚ => (1 : ℚ)) x)
    ∧ ((1 : ℚ) / 2 ≤ 1)
    ∧ ([(0 : ℚ), 0] ≠ [])
    ∧ (1 ≤ [(0 : ℚ), 0].length)
    ∧ ∃ rem out,
        typicalIndicesToRemove (fun _ => 1) (fun _ => 0) [0, 0] (1 / 2) 1
          = some rem
        ∧ typical_sampling_logits (fun _ => 1) (fun _ => 0) [0, 0] (1 / 2) 1
            (-1000) = some out
        ∧ rem.length + 1 ≤ [(0 : ℚ), 0].length
        ∧ ∀ j, j < [(0 : ℚ), 0].length → j ∉ rem →
            out.getD j 0 = [(0 : ℚ), 0].getD j 0 :=
  ⟨fun _ => by norm_num, by norm_num, by decide, by decide,
   C7_typical_min_tokens_in_bounds (fun _ => 1) (fun _ => 0)
     (fun _ => by norm_num) [0, 0] (1 / 2) 1 (-1000) (by norm_num)
     (by decide) (by decide)⟩

/-! ## Claim C6: nucleus (top-p) filtering -/

theorem shiftRightMask_length (l : List Bool) :
    (shiftRightMask l).length = l.length := by
  cases l with
  | nil => rfl
  | cons x xs =>
    simp [shiftRightMask, List.length_dropLast]

theorem getD_dropLast (l : List Bool) (q : ℕ) (hq : q < l.length - 1) :
    l.dropLast.getD q false = l.getD q false := by
  rw [List.getD_eq_getElem?_getD, List.getD_eq_getElem?_getD,
    List.getElem?_dropLast]
  simp [hq]

theorem topPMaskSorted_getD (e : ℚ → ℚ) (sortedLogits : List ℚ) (topP : ℚ)
    (r : ℕ) (hr : r < sortedLogits.length) :
    (topPMaskSorted e sortedLogits topP).getD r false
      = if r = 0 then false
        else decide (topP
          < (cumsum (softmaxQ e sortedLogits)).getD (r - 1) 0) := by
  have hrawlen : ((cumsum (softmaxQ e sortedLogits)).map
      (fun c => decide (topP < c))).length = sortedLogits.length := by
    rw [List.length_map, cumsum_length, softmaxQ_length]
  rw [topPMaskSorted]
  rcases hraw : (cumsum (softmaxQ e sortedLogits)).map
      (fun c => decide (topP < c)) with _ | ⟨y, ys⟩
  · rw [hraw] at hrawlen
    simp at hrawlen
    omega
  · have hsrm : shiftRightMask (y :: ys) = false :: (y :: ys).dropLast := rfl
    rw [hsrm]
    cases r with
    | zero => rfl
    | succ q =>
      rw [if_neg (Nat.succ_ne_zero q)]
      have hq : q < (y :: ys).length - 1 := by
        rw [← hraw, hrawlen] at *
        omega
      rw [List.getD_cons_succ, getD_dropLast _ q hq, ← hraw,
        getD_map_decide_lt topP _ q (by rw [cumsum_length, softmaxQ_length]; omega)]
      rfl

theorem mem_zip_filterMap_iff (a : List ℕ) (b : List Bool)
    (hlen : a.length = b.length) (hnd : a.Nodup) (r : ℕ) (hr : r < a.length) :
    (a.get ⟨r, hr⟩) ∈ (List.zip a b).filterMap
        (fun q => if q.2 then some q.1 else none)
      ↔ b.getD r false = true := by
  have hr2 : r < b.length := hlen ▸ hr
  rw [List.mem_filterMap]
  constructor
  · rintro ⟨y, hy, hfy⟩
    by_cases h2 : y.2 = true
    · rw [if_pos h2] at hfy
      have hy1 : y.1 = a.get ⟨r, hr⟩ := Option.some_inj.mp hfy
      obtain ⟨k, hk⟩ := List.mem_iff_get?.mp hy
      have hkz : (List.zip a b)[k]? = some y := by
        rw [← List.get?_eq_getElem?]
        exact hk
      obtain ⟨ha1, hb1⟩ := List.getElem?_zip_eq_some.mp hkz
      have hklt : k < a.length := by
        rcases List.getElem?_eq_some_iff.mp ha1 with ⟨h, _⟩
        exact h
      have hak : a.get ⟨k, hklt⟩ = y.1 := by
        have := List.getElem?_eq_getElem hklt
        rw [this] at ha1
        exact Option.some_inj.mp ha1
      have hkr : k = r := by
        have hget : a.get ⟨k, hklt⟩ = a.get ⟨r, hr⟩ := by rw [hak, hy1]
        exact congrArg Fin.val ((List.Nodup.get_inj_iff hnd).mp hget)
      subst hkr
      have hbk : b[k]? = some true := h2 ▸ hb1
      rw [List.getD_eq_getElem?_getD, hbk]
      rfl
    · rw [if_neg h2] at hfy
      exact absurd hfy (by simp)
  · intro hb
    have hbr : b.get ⟨r, hr2⟩ = true := by
      rw [List.getD_eq_getElem?_getD, List.getElem?_eq_getElem hr2] at hb
      exact hb
    refine ⟨(a.get ⟨r, hr⟩, b.get ⟨r, hr2⟩), ?_, ?_⟩
    · apply List.get?_mem
      rw [List.get?_eq_getElem?]
      apply List.getElem?_zip_eq_some.mpr
      constructor
      · rw [List.getElem?_eq_getElem hr]
        rfl
      · rw [List.getElem?_eq_getElem hr2]
        rfl
    · rw [if_pos hbr]

/-- Claim C6 as amended: with the exact-equality boundary corrected from
"meets or exceeds" to "strictly exceeds", `top_p_logits` keeps exactly the
positions of the descending sort every one of whose predecessors' cumulative
softmax probabilities is at most `top_p` — a prefix through the first
position whose cumulative probability strictly exceeds the threshold, always
containing sorted position 0 — masks the rest to the filter value, and with
`top_p = 1` returns every logit unchanged. -/
theorem C6_top_p_keeps_strict_prefix (e : ℚ → ℚ) (he : ∀ x, 0 < e x)
    (logits : List ℚ) (topP fv : ℚ) (hp : 0 < topP) :
    (∀ r (hr : r < (List.insertionSort descRel logits.enum).length),
      (top_p_logits e logits topP fv).getD
          ((List.insertionSort descRel logits.enum).get ⟨r, hr⟩).1 0
        = if ∀ q, q < r →
              (cumsum (softmaxQ e ((List.insertionSort descRel
                logits.enum).map Prod.snd))).getD q 0 ≤ topP
          then ((List.insertionSort descRel logits.enum).get ⟨r, hr⟩).2
          else fv)
    ∧ (topP = 1 → top_p_logits e logits topP fv = logits) := by
  have hperm := List.perm_insertionSort descRel logits.enum
  have hslen : (List.insertionSort descRel logits.enum).length
      = logits.length := by
    rw [hperm.length_eq, List.enum_length]
  have hsvlen : ((List.insertionSort descRel logits.enum).map
      Prod.snd).length = logits.length := by
    rw [List.length_map, hslen]
  have hcpslen : (cumsum (softmaxQ e ((List.insertionSort descRel
      logits.enum).map Prod.snd))).length = logits.length := by
    rw [cumsum_length, softmaxQ_length, hsvlen]
  have hmasklen : (topPMaskSorted e ((List.insertionSort descRel
      logits.enum).map Prod.snd) topP).length = logits.length := by
    rw [topPMaskSorted, shiftRightMask_length, List.length_map, hcpslen]
  have hnd : ((List.insertionSort descRel logits.enum).map Prod.fst).Nodup := by
    have hpm := hperm.map Prod.fst
    rw [List.enum_map_fst] at hpm
    exact hpm.nodup_iff.mpr (List.nodup_range _)
  have hnonneg := softmaxQ_nonneg e he
    ((List.insertionSort descRel logits.enum).map Prod.snd)
  constructor
  · intro r hr
    have hpair : (List.insertionSort descRel logits.enum).get ⟨r, hr⟩
        ∈ logits.enum := hperm.subset (List.get_mem _ _ _)
    have hidxe : logits[((List.insertionSort descRel
        logits.enum).get ⟨r, hr⟩).1]?
        = some ((List.insertionSort descRel logits.enum).get ⟨r, hr⟩).2 :=
      List.mem_enum_iff_getElem?.mp hpair
    have hidxlt : ((List.insertionSort descRel
        logits.enum).get ⟨r, hr⟩).1 < logits.length := by
      rcases List.getElem?_eq_some_iff.mp hidxe with ⟨h, _⟩
      exact h
    simp only [top_p_logits, if_pos hp]
    rw [maskfill_getD logits _ fv _ hidxlt]
    have hgetmap : (((List.insertionSort descRel logits.enum).map
        Prod.fst).get ⟨r, by rw [List.length_map]; exact hr⟩)
        = ((List.insertionSort descRel logits.enum).get ⟨r, hr⟩).1 := by
      simp [List.getElem_map]
    have hmem := mem_zip_filterMap_iff
      ((List.insertionSort descRel logits.enum).map Prod.fst)
      (topPMaskSorted e ((List.insertionSort descRel logits.enum).map
        Prod.snd) topP)
      (by rw [List.length_map, hslen, hmasklen]) hnd r
      (by rw [List.length_map]; exact hr)
    rw [hgetmap] at hmem
    have hmaskval := topPMaskSorted_getD e
      ((List.insertionSort descRel logits.enum).map Prod.snd) topP r
      (by rw [hsvlen, ← hslen]; exact hr)
    by_cases hcond : ∀ q, q < r →
        (cumsum (softmaxQ e ((List.insertionSort descRel
          logits.enum).map Prod.snd))).getD q 0 ≤ topP
    · rw [if_pos hcond]
      have hfalse : (topPMaskSorted e ((List.insertionSort descRel
          logits.enum).map Prod.snd) topP).getD r false = false := by
        rw [hmaskval]
        by_cases hr0 : r = 0
        · rw [if_pos hr0]
        · rw [if_neg hr0]
          exact decide_eq_false (not_lt.mpr (hcond (r - 1) (by omega)))
      have hnotmem : ¬(((List.insertionSort descRel
          logits.enum).get ⟨r, hr⟩).1
          ∈ (List.zip ((List.insertionSort descRel logits.enum).map
              Prod.fst)
            (topPMaskSorted e ((List.insertionSort descRel
              logits.enum).map Prod.snd) topP)).filterMap
            (fun q => if q.2 then some q.1 else none)) := by
        intro hm
        have := hmem.mp hm
        rw [hfalse] at this
        exact Bool.false_ne_true this
      rw [if_neg hnotmem, List.getD_eq_getElem?_getD, hidxe]
      rfl
    · rw [if_neg hcond]
      push_neg at hcond
      obtain ⟨q, hq, hqgt⟩ := hcond
      have hr0 : r ≠ 0 := by omega
      have htrue : (topPMaskSorted e ((List.insertionSort descRel
          logits.enum).map Prod.snd) topP).getD r false = true := by
        rw [hmaskval, if_neg hr0]
        apply decide_eq_true
        have hmono := cumsum_mono
          (softmaxQ e ((List.insertionSort descRel logits.enum).map
            Prod.snd)) hnonneg q (r - 1) (by omega)
          (by rw [softmaxQ_length, hsvlen, ← hslen]; omega)
        linarith
      rw [if_pos (hmem.mpr htrue)]
  · intro hp1
    subst hp1
    by_cases hnil : logits = []
    · rw [hnil]
      simp [top_p_logits]
    · have hVpos : 0 < logits.length := List.length_pos.mpr hnil
      have hsvne : ((List.insertionSort descRel logits.enum).map
          Prod.snd) ≠ [] :=
        List.length_pos.mp (by rw [hsvlen]; omega)
      have hlastone : (cumsum (softmaxQ e ((List.insertionSort descRel
          logits.enum).map Prod.snd))).getD (logits.length - 1) 0 = 1 := by
        have hsm : (softmaxQ e ((List.insertionSort descRel
            logits.enum).map Prod.snd)).length = logits.length := by
          rw [softmaxQ_length, hsvlen]
        have hidx : logits.length - 1
            = (softmaxQ e ((List.insertionSort descRel logits.enum).map
                Prod.snd)).length - 1 := by
          rw [hsm]
        rw [hidx, cumsum_getD_last _ (List.length_pos.mp (by rw [hsm]; omega))]
        exact softmaxQ_sum e he _ hsvne
      have hcps_le : ∀ q, q < logits.length →
          (cumsum (softmaxQ e ((List.insertionSort descRel
            logits.enum).map Prod.snd))).getD q 0 ≤ 1 := by
        intro q hq
        have hmono := cumsum_mono
          (softmaxQ e ((List.insertionSort descRel logits.enum).map
            Prod.snd)) hnonneg q (logits.length - 1) (by omega)
          (by rw [softmaxQ_length, hsvlen]; omega)
        rw [hlastone] at hmono
        exact hmono
      have hmaskfalse : ∀ r, r < (topPMaskSorted e
          ((List.insertionSort descRel logits.enum).map Prod.snd) 1).length →
          (topPMaskSorted e ((List.insertionSort descRel
            logits.enum).map Prod.snd) 1).getD r false = false := by
        intro r hrm
        rw [hmasklen] at hrm
        rw [topPMaskSorted_getD e _ 1 r (by rw [hsvlen]; exact hrm)]
        by_cases hr0 : r = 0
        · rw [if_pos hr0]
        · rw [if_neg hr0]
          exact decide_eq_false (not_lt.mpr (hcps_le (r - 1) (by omega)))
      have hremlen : ((List.zip ((List.insertionSort descRel
          logits.enum).map Prod.fst)
          (topPMaskSorted e ((List.insertionSort descRel logits.enum).map
            Prod.snd) 1)).filterMap
          (fun q => if q.2 then some q.1 else none)).length = 0 := by
        rw [zip_filterMap_true_length _ _
          (by rw [List.length_map, hslen, hmasklen])]
        have := count_true_le_of_prefix_false _ _ hmaskfalse (le_refl _)
        omega
      have hremnil : ((List.zip ((List.insertionSort descRel
          logits.enum).map Prod.fst)
          (topPMaskSorted e ((List.insertionSort descRel logits.enum).map
            Prod.snd) 1)).filterMap
          (fun q => if q.2 then some q.1 else none)) = [] :=
        List.length_eq_zero.mp hremlen
      simp only [top_p_logits, if_pos (by norm_num : (0 : ℚ) < 1)]
      rw [hremnil]
      simp [List.enum_map_snd]

/-- Counterexample to claim C6 as stated: on two equal logits with
`top_p = 1/2` the cumulative probabilities are exactly `[1/2, 1]`, so the
first position *meets* the threshold; the claim then keeps only the top
token and masks the other, but the code's strict comparison
(`cumulative_probs > top_p`) keeps both — the logits come back unchanged.
(The abstracted exponential agrees with the real one on the only input
used: `exp 0 = 1`.) -/
theorem C6_equality_boundary_kept :
    top_p_logits (fun _ => 1) [0, 0] (1 / 2) (-1000) = [0, 0]
    ∧ top_p_logits_claimed (fun _ => 1) [0, 0] (1 / 2) (-1000) = [0, -1000]
    ∧ ([0, 0] : List ℚ) ≠ [0, -1000] := by
  refine ⟨?_, ?_, by norm_num⟩ <;>
    norm_num [top_p_logits, top_p_logits_claimed, topPMaskSorted,
      shiftRightMask, softmaxQ, cumsum, cumsumFrom, descRel,
      List.insertionSort, List.orderedInsert, List.takeWhile,
      List.enum, List.enumFrom, List.filterMap_cons]

/-- Witness for the amended C6 on the distinct logits `[1, 0]` with
threshold `1/2`. -/
theorem C6_top_p_keeps_strict_prefix_witness :
    (∀ x : ℚ, 0 < (fun _ : ℚ => (1 : ℚ)) x)
    ∧ ((0 : ℚ) < 1 / 2)
    ∧ ((∀ r (hr : r < (List.insertionSort descRel
          ([(1 : ℚ), 0]).enum).length),
        (top_p_logits (fun _ => 1) [1, 0] (1 / 2) (-1000)).getD
            ((List.insertionSort descRel ([(1 : ℚ), 0]).enum).get
              ⟨r, hr⟩).1 0
          = if ∀ q, q < r →
                (cumsum (softmaxQ (fun _ => 1)
                  ((List.insertionSort descRel
                    ([(1 : ℚ), 0]).enum).map Prod.snd))).getD q 0 ≤ 1 / 2
            then ((List.insertionSort descRel
                ([(1 : ℚ), 0]).enum).get ⟨r, hr⟩).2
            else -1000)
      ∧ ((1 : ℚ) / 2 = 1 →
          top_p_logits (fun _ => 1) [1, 0] (1 / 2) (-1000) = [1, 0])) :=
  ⟨fun _ => by norm_num, by norm_num,
   C6_top_p_keeps_strict_prefix (fun _ => 1) (fun _ => by norm_num)
     [1, 0] (1 / 2) (-1000) (by norm_num)⟩
